import Mathlib

/-!
# ShaderFastMathLib.h over an exact model of IEEE-754 binary32

The header computes with C `float` and `int`.  A `float` is carried here as
its 32-bit pattern (a natural number below `2 ^ 32`), so that `asint` and
`asfloat` are the reinterpretations the source performs.  Every finite
binary32 value is an integer multiple of `2 ^ (-149)`; the model keeps that
integer (`F32.mag`, `F32.toInt`), which makes products and sums exact before
the single rounding step (round to nearest, ties to even) that each C
operation performs.

Modelling conventions:
* every C operation rounds once to binary32 (no fused multiply-add, no
  extended intermediate precision);
* a NaN result is the canonical quiet NaN `0x7FC00000`;
* signed `int` arithmetic wraps modulo `2 ^ 32`.
-/

namespace F32

/-! ## Bit patterns -/

/-- Number of binary digits of `n`, found by halving at most `fuel` times. -/
def bitLenAux : Nat → Nat → Nat
  | 0, _ => 0
  | fuel + 1, n => if n = 0 then 0 else bitLenAux fuel (n / 2) + 1

/-- Number of binary digits of `n` (`0` for `n = 0`). -/
def bitLen (n : Nat) : Nat := bitLenAux n n

/-- Biased exponent field (8 bits). -/
def expField (b : Nat) : Nat := b / 2 ^ 23 % 256

/-- Fraction field (23 bits). -/
def manField (b : Nat) : Nat := b % 2 ^ 23

/-- Sign bit of a 32-bit pattern. -/
def isNeg (b : Nat) : Bool := decide (2 ^ 31 ≤ b % 2 ^ 32)

/-- The pattern is a NaN. -/
def isNaN (b : Nat) : Bool := decide (expField b = 255 ∧ manField b ≠ 0)

/-- The pattern is an infinity. -/
def isInf (b : Nat) : Bool := decide (expField b = 255 ∧ manField b = 0)

/-- The pattern is a finite number (zero, subnormal or normal). -/
def isFinite (b : Nat) : Bool := decide (expField b < 255)

/-- The pattern is a positive, finite, normal number. -/
def isPosNormal (b : Nat) : Bool := decide (0x00800000 ≤ b ∧ b ≤ 0x7F7FFFFF)

/-- Magnitude in units of `2 ^ (-149)`. -/
def mag (b : Nat) : Nat :=
  if expField b = 0 then manField b else (2 ^ 23 + manField b) * 2 ^ (expField b - 1)

/-- Signed value in units of `2 ^ (-149)`. -/
def toInt (b : Nat) : Int := if isNeg b then -(mag b : Int) else (mag b : Int)

/-- The rational number a finite pattern denotes. -/
def toRat (b : Nat) : ℚ := (toInt b : ℚ) / 2 ^ 149

/-- Canonical quiet NaN. -/
def qNaN : Nat := 0x7FC00000

/-- Magnitude pattern of infinity. -/
def infBits : Nat := 0x7F800000

/-- Attach a sign bit to a 31-bit magnitude pattern. -/
def withSign (neg : Bool) (m : Nat) : Nat := if neg then 2 ^ 31 + m else m

/-- A finite pattern whose magnitude is at most `C` units of `2 ^ (-149)`. -/
def Bnd (x C : Nat) : Prop := isFinite x = true ∧ mag x ≤ C

/-! ## Rounding -/

/-- Magnitude pattern of the binary32 number nearest to `(N / d) * 2 ^ (-149)`,
ties to even, saturating to infinity. -/
def roundMag (N d : Nat) : Nat :=
  let k := bitLen (N / d) - 24
  let D := d * 2 ^ k
  let M0 := N / D
  let r := N % D
  let M := if D < 2 * r ∨ (2 * r = D ∧ M0 % 2 = 1) then M0 + 1 else M0
  let b := k * 2 ^ 23 + M
  if b < infBits then b else infBits

/-- Floor of the square root, one binary digit per step. -/
def isqrtAux (T : Nat) : Nat → Nat → Nat
  | 0, r => r
  | i + 1, r => if (r + 2 ^ i) * (r + 2 ^ i) ≤ T then isqrtAux T i (r + 2 ^ i) else isqrtAux T i r

/-- Floor of the square root of `T`. -/
def isqrt (T : Nat) : Nat := isqrtAux T (bitLen T / 2 + 1) 0

/-! ## Arithmetic -/

/-- C unary minus on `float`: flips the sign bit. -/
def fneg (a : Nat) : Nat := if a % 2 ^ 32 < 2 ^ 31 then a % 2 ^ 32 + 2 ^ 31 else a % 2 ^ 32 - 2 ^ 31

/-- C `abs` on `float`: clears the sign bit. -/
def fabs (a : Nat) : Nat := a % 2 ^ 31

/-- C `*` on `float`. -/
def fmul (a b : Nat) : Nat :=
  if isNaN a || isNaN b then qNaN
  else if isInf a then (if mag b = 0 then qNaN else withSign (xor (isNeg a) (isNeg b)) infBits)
  else if isInf b then (if mag a = 0 then qNaN else withSign (xor (isNeg a) (isNeg b)) infBits)
  else withSign (xor (isNeg a) (isNeg b)) (roundMag (mag a * mag b) (2 ^ 149))

/-- C `+` on `float`. -/
def fadd (a b : Nat) : Nat :=
  if isNaN a || isNaN b then qNaN
  else if isInf a then (if isInf b && (isNeg a != isNeg b) then qNaN else a)
  else if isInf b then b
  else
    let s := toInt a + toInt b
    if s = 0 then withSign (isNeg a && isNeg b) 0
    else withSign (decide (s < 0)) (roundMag s.natAbs 1)

/-- C binary `-` on `float`. -/
def fsub (a b : Nat) : Nat := fadd a (fneg b)

/-- C `sqrt` on `float` (correctly rounded). -/
def fsqrt (a : Nat) : Nat :=
  if isNaN a then qNaN
  else if mag a = 0 then a
  else if isNeg a then qNaN
  else if isInf a then a
  else
    let T := mag a * 2 ^ 151
    let s := isqrt T
    roundMag (2 * s + (if s * s = T then 0 else 1)) 4

/-- C `>` on `float`. -/
def fgt (a b : Nat) : Bool := !(isNaN a || isNaN b) && decide (toInt b < toInt a)

/-- A positive decimal literal `p / 10 ^ s` with the `f` suffix. -/
def lit (p s : Nat) : Nat := roundMag (p * 2 ^ 149) (10 ^ s)

/-! ## Reinterpretation and 32-bit integers -/

/-- Wrap an integer into the range of a 32-bit signed `int`. -/
def wrap32 (i : Int) : Int := (i + 2 ^ 31) % 2 ^ 32 - 2 ^ 31

/-- Bits of a `float` read as a signed `int`. -/
def asint (b : Nat) : Int := wrap32 (b : Int)

/-- Bits of a signed `int` read as a `float`. -/
def asfloat (i : Int) : Nat := (i % 2 ^ 32).toNat

end F32

open F32

/-! ## The header -/

def IEEE_INT_RCP_CONST_NR0 : Int := 0x7EF311C2
def IEEE_INT_RCP_CONST_NR1 : Int := 0x7EF311C3
def IEEE_INT_RCP_CONST_NR2 : Int := 0x7EF312AC

def IEEE_INT_SQRT_CONST_NR0 : Int := 0x1FBD1DF5

def IEEE_INT_RCP_SQRT_CONST_NR0 : Int := 0x5f3759df
def IEEE_INT_RCP_SQRT_CONST_NR1 : Int := 0x5F375A86
def IEEE_INT_RCP_SQRT_CONST_NR2 : Int := 0x5F375A86

/-- Source: `x = inRcpSqrtConst - (x >> 1)`. -/
def rcpSqrtIEEEIntApproximation (inX : Nat) (inRcpSqrtConst : Int) : Nat :=
  let x := asint inX
  let x := wrap32 (inRcpSqrtConst - (x >>> 1))
  asfloat x

/-- Source: `inRcpX * (-inXHalf * (inRcpX * inRcpX) + 1.5f)`. -/
def rcpSqrtNewtonRaphson (inXHalf inRcpX : Nat) : Nat :=
  fmul inRcpX (fadd (fmul (fneg inXHalf) (fmul inRcpX inRcpX)) (lit 15 1))

def fastRcpSqrtNR0 (inX : Nat) : Nat :=
  let xRcpSqrt := rcpSqrtIEEEIntApproximation inX IEEE_INT_RCP_SQRT_CONST_NR0
  xRcpSqrt

def fastRcpSqrtNR1 (inX : Nat) : Nat :=
  let xhalf := fmul (lit 5 1) inX
  let xRcpSqrt := rcpSqrtIEEEIntApproximation inX IEEE_INT_RCP_SQRT_CONST_NR1
  let xRcpSqrt := rcpSqrtNewtonRaphson xhalf xRcpSqrt
  xRcpSqrt

def fastRcpSqrtNR2 (inX : Nat) : Nat :=
  let xhalf := fmul (lit 5 1) inX
  let xRcpSqrt := rcpSqrtIEEEIntApproximation inX IEEE_INT_RCP_SQRT_CONST_NR2
  let xRcpSqrt := rcpSqrtNewtonRaphson xhalf xRcpSqrt
  let xRcpSqrt := rcpSqrtNewtonRaphson xhalf xRcpSqrt
  xRcpSqrt

/-- Source: `x = inSqrtConst + (x >> 1)`. -/
def sqrtIEEEIntApproximation (inX : Nat) (inSqrtConst : Int) : Nat :=
  let x := asint inX
  let x := wrap32 (inSqrtConst + (x >>> 1))
  asfloat x

def fastSqrtNR0 (inX : Nat) : Nat :=
  let xRcp := sqrtIEEEIntApproximation inX IEEE_INT_SQRT_CONST_NR0
  xRcp

def fastSqrtNR1 (inX : Nat) : Nat :=
  fmul inX (fastRcpSqrtNR1 inX)

def fastSqrtNR2 (inX : Nat) : Nat :=
  fmul inX (fastRcpSqrtNR2 inX)

/-- Source: `x = inRcpConst - x`. -/
def rcpIEEEIntApproximation (inX : Nat) (inRcpConst : Int) : Nat :=
  let x := asint inX
  let x := wrap32 (inRcpConst - x)
  asfloat x

/-- Source: `inRcpX * (-inRcpX * inX + 2.0f)`. -/
def rcpNewtonRaphson (inX inRcpX : Nat) : Nat :=
  fmul inRcpX (fadd (fmul (fneg inRcpX) inX) (lit 2 0))

def fastRcpNR0 (inX : Nat) : Nat :=
  let xRcp := rcpIEEEIntApproximation inX IEEE_INT_RCP_CONST_NR0
  xRcp

def fastRcpNR1 (inX : Nat) : Nat :=
  let xRcp := rcpIEEEIntApproximation inX IEEE_INT_RCP_CONST_NR1
  let xRcp := rcpNewtonRaphson inX xRcp
  xRcp

def fastRcpNR2 (inX : Nat) : Nat :=
  let xRcp := rcpIEEEIntApproximation inX IEEE_INT_RCP_CONST_NR2
  let xRcp := rcpNewtonRaphson inX xRcp
  let xRcp := rcpNewtonRaphson inX xRcp
  xRcp

/-- Source: `3.1415926535897932384626433f`. -/
def fsl_PI : Nat := lit 31415926535897932384626433 25

/-- Source: `0.5f * fsl_PI`. -/
def fsl_HALF_PI : Nat := fmul (lit 5 1) fsl_PI

def acosFast4 (inX : Nat) : Nat :=
  let x1 := inX
  let x2 := fmul x1 x1
  let x3 := fmul x2 x1
  let s := fadd (fmul (fneg (lit 2121144 7)) x1) (lit 15707288 7)
  let s := fadd (fmul (lit 742610 7) x2) s
  let s := fadd (fmul (fneg (lit 187293 7)) x3) s
  let s := fmul (fsqrt (fsub (lit 10 1) x1)) s
  if fgt x1 (lit 0 1) then s else fneg s

def asinFast4 (inX : Nat) : Nat :=
  let x := inX
  fsub fsl_HALF_PI (acosFast4 x)

def atanFast4 (inX : Nat) : Nat :=
  let x := inX
  fmul x (fadd (fsub (fmul (fneg (lit 1784 4)) (fabs x)) (fmul (fmul (lit 663 4) x) x)) (lit 10301 4))

/-! ## The refinement expressions in exact arithmetic -/

/-- Source: `inRcpX * (-inRcpX * inX + 2.0f)`, evaluated without rounding. -/
def rcpNewtonRaphsonExact {K : Type} [Field K] (inX inRcpX : K) : K :=
  inRcpX * (-inRcpX * inX + 2)

/-- Source: `inRcpX * (-inXHalf * (inRcpX * inRcpX) + 1.5f)`, evaluated without rounding. -/
def rcpSqrtNewtonRaphsonExact {K : Type} [Field K] (inXHalf inRcpX : K) : K :=
  inRcpX * (-inXHalf * (inRcpX * inRcpX) + 3 / 2)

/-! ## Properties of the binary32 model -/

namespace F32

theorem bitLenAux_zero (fuel : Nat) : bitLenAux fuel 0 = 0 := by
  cases fuel <;> simp [bitLenAux]

theorem lt_two_pow_bitLenAux (fuel n : Nat) (h : n ≤ fuel) : n < 2 ^ bitLenAux fuel n := by
  induction fuel generalizing n with
  | zero =>
    have h0 : n = 0 := by omega
    subst h0
    simp [bitLenAux]
  | succ f ih =>
    by_cases hn : n = 0
    · subst hn
      simp [bitLenAux]
    · have h2 := ih (n / 2) (by omega)
      simp only [bitLenAux, hn, if_false, pow_succ]
      omega

theorem two_pow_bitLenAux_le (fuel n : Nat) (h : n ≤ fuel) (hn : n ≠ 0) :
    2 ^ (bitLenAux fuel n - 1) ≤ n := by
  induction fuel generalizing n with
  | zero => omega
  | succ f ih =>
    simp only [bitLenAux, hn, if_false, Nat.add_sub_cancel]
    by_cases h2 : n / 2 = 0
    · rw [h2, bitLenAux_zero]
      simp
      omega
    · have h3 := ih (n / 2) (by omega) h2
      have h4 : bitLenAux f (n / 2) ≠ 0 := by
        cases f with
        | zero => omega
        | succ g => simp [bitLenAux, h2]
      obtain ⟨L, hL⟩ := Nat.exists_eq_succ_of_ne_zero h4
      rw [hL] at h3 ⊢
      simp only [Nat.succ_eq_add_one, Nat.add_sub_cancel, pow_succ] at h3 ⊢
      omega

theorem lt_two_pow_bitLen (n : Nat) : n < 2 ^ bitLen n :=
  lt_two_pow_bitLenAux n n (Nat.le_refl n)

theorem two_pow_bitLen_le (n : Nat) (hn : n ≠ 0) : 2 ^ (bitLen n - 1) ≤ n :=
  two_pow_bitLenAux_le n n (Nat.le_refl n) hn

theorem bitLen_le_of_lt (n B : Nat) (h : n < 2 ^ B) : bitLen n ≤ B := by
  by_cases hn : n = 0
  · subst hn
    simp [bitLen, bitLenAux_zero]
  · have h1 := two_pow_bitLen_le n hn
    have h2 : 2 ^ (bitLen n - 1) < 2 ^ B := Nat.lt_of_le_of_lt h1 h
    have h3 := (Nat.pow_lt_pow_iff_right (by norm_num : 1 < 2)).1 h2
    omega

/-! ### Decoding packed patterns -/

theorem mag_pack (k M : Nat) (hM : M ≤ 2 ^ 24) (hk : k = 0 ∨ 2 ^ 23 ≤ M)
    (hb : k * 2 ^ 23 + M < infBits) : mag (k * 2 ^ 23 + M) = M * 2 ^ k := by
  simp only [infBits] at hb
  norm_num at hM hk hb
  unfold mag expField manField
  norm_num
  by_cases h1 : M < 8388608
  · have hk0 : k = 0 := by omega
    subst hk0
    have e1 : M / 8388608 % 256 = 0 := by omega
    have e2 : M % 8388608 = M := by omega
    simp [e1, e2]
  · by_cases h2 : M = 16777216
    · subst h2
      have e1 : (k * 8388608 + 16777216) / 8388608 % 256 = k + 2 := by omega
      have e2 : (k * 8388608 + 16777216) % 8388608 = 0 := by omega
      rw [e1, e2]
      simp only [Nat.add_eq_zero, OfNat.ofNat_ne_zero, and_false, if_false]
      have e3 : k + 2 - 1 = k + 1 := by omega
      rw [e3, pow_succ]
      ring
    · have e1 : (k * 8388608 + M) / 8388608 % 256 = k + 1 := by omega
      have e2 : (k * 8388608 + M) % 8388608 = M - 8388608 := by omega
      rw [e1, e2]
      simp only [Nat.add_eq_zero, one_ne_zero, and_false, if_false, Nat.add_sub_cancel]
      have e3 : 8388608 + (M - 8388608) = M := by omega
      rw [e3]

theorem expField_lt_of_lt_infBits (c : Nat) (hc : c < infBits) : expField c < 255 := by
  simp only [infBits] at hc
  unfold expField
  norm_num
  omega

theorem isNeg_of_lt_infBits (c : Nat) (hc : c < infBits) : isNeg c = false := by
  simp only [infBits] at hc
  simp only [isNeg, decide_eq_false_iff_not]
  norm_num
  omega

theorem mag_lt_of_expField_lt (c : Nat) (hc : expField c < 255) :
    mag c < 2 ^ 24 * 2 ^ 253 := by
  unfold mag
  have hm : manField c < 2 ^ 23 := Nat.mod_lt _ (by norm_num)
  split
  · calc manField c < 2 ^ 23 := hm
      _ ≤ 2 ^ 24 * 2 ^ 253 := by norm_num
  · have h1 : 2 ^ (expField c - 1) ≤ 2 ^ 253 := Nat.pow_le_pow_right (by norm_num) (by omega)
    calc (2 ^ 23 + manField c) * 2 ^ (expField c - 1)
        ≤ (2 ^ 23 + manField c) * 2 ^ 253 := Nat.mul_le_mul_left _ h1
      _ < 2 ^ 24 * 2 ^ 253 := by
          apply Nat.mul_lt_mul_of_pos_right _ (by positivity)
          omega

theorem two_pow_dvd_mag (c k : Nat) (h : 2 ^ (23 + k) ≤ mag c) : 2 ^ k ∣ mag c := by
  unfold mag at h ⊢
  have hm : manField c < 2 ^ 23 := Nat.mod_lt _ (by norm_num)
  split at h
  · exfalso
    have : 2 ^ 23 ≤ 2 ^ (23 + k) := Nat.pow_le_pow_right (by norm_num) (by omega)
    omega
  · rename_i he
    rw [if_neg he]
    have h1 : (2 ^ 23 + manField c) * 2 ^ (expField c - 1) < 2 ^ 24 * 2 ^ (expField c - 1) := by
      apply Nat.mul_lt_mul_of_pos_right _ (by positivity)
      omega
    have h2 : 2 ^ (23 + k) < 2 ^ (24 + (expField c - 1)) := by
      rw [pow_add 2 24]
      exact Nat.lt_of_le_of_lt h h1
    have h3 := (Nat.pow_lt_pow_iff_right (by norm_num : 1 < 2)).1 h2
    exact Dvd.dvd.mul_left (pow_dvd_pow 2 (by omega)) _

/-! ### The rounding step -/

/-- What `roundMag` computes: a binade index `k`, the truncated significand
`M0` and the rounded significand `M`, with `M` nearest to `N / (d * 2 ^ k)`. -/
theorem roundMag_spec (N d : Nat) (hd : 0 < d) :
    ∃ k M0 M : Nat,
      roundMag N d = (if k * 2 ^ 23 + M < infBits then k * 2 ^ 23 + M else infBits) ∧
      k = bitLen (N / d) - 24 ∧
      M0 * (d * 2 ^ k) ≤ N ∧ N < (M0 + 1) * (d * 2 ^ k) ∧
      M0 < 2 ^ 24 ∧ (k = 0 ∨ 2 ^ 23 ≤ M0) ∧
      ((M = M0 ∧ 2 * (N - M0 * (d * 2 ^ k)) ≤ d * 2 ^ k) ∨
        (M = M0 + 1 ∧ d * 2 ^ k ≤ 2 * (N - M0 * (d * 2 ^ k)))) := by
  have hD : 0 < d * 2 ^ (bitLen (N / d) - 24) := Nat.mul_pos hd (by positivity)
  refine ⟨bitLen (N / d) - 24, N / (d * 2 ^ (bitLen (N / d) - 24)),
    (if d * 2 ^ (bitLen (N / d) - 24) < 2 * (N % (d * 2 ^ (bitLen (N / d) - 24))) ∨
        (2 * (N % (d * 2 ^ (bitLen (N / d) - 24))) = d * 2 ^ (bitLen (N / d) - 24) ∧
          N / (d * 2 ^ (bitLen (N / d) - 24)) % 2 = 1)
      then N / (d * 2 ^ (bitLen (N / d) - 24)) + 1 else N / (d * 2 ^ (bitLen (N / d) - 24))),
    rfl, rfl, ?_, ?_, ?_, ?_, ?_⟩
  · exact Nat.div_mul_le_self N _
  · have := Nat.lt_div_mul_add (a := N) hD
    rw [Nat.add_mul, Nat.one_mul]
    exact this
  · rw [← Nat.div_div_eq_div_mul]
    apply Nat.div_lt_of_lt_mul
    have h1 := lt_two_pow_bitLen (N / d)
    have h2 : 2 ^ bitLen (N / d) ≤ 2 ^ (bitLen (N / d) - 24 + 24) :=
      Nat.pow_le_pow_right (by norm_num) (by omega)
    rw [pow_add] at h2
    exact Nat.lt_of_lt_of_le h1 h2
  · by_cases hk : bitLen (N / d) - 24 = 0
    · exact Or.inl hk
    · right
      rw [← Nat.div_div_eq_div_mul]
      rw [Nat.le_div_iff_mul_le (by positivity)]
      have hq : N / d ≠ 0 := by
        intro h0
        rw [h0] at hk
        simp [bitLen, bitLenAux_zero] at hk
      have h1 := two_pow_bitLen_le (N / d) hq
      have h2 : 23 + (bitLen (N / d) - 24) = bitLen (N / d) - 1 := by omega
      rw [← pow_add, h2]
      exact h1
  · have hmod : N - N / (d * 2 ^ (bitLen (N / d) - 24)) * (d * 2 ^ (bitLen (N / d) - 24))
        = N % (d * 2 ^ (bitLen (N / d) - 24)) := by
      have := Nat.div_add_mod N (d * 2 ^ (bitLen (N / d) - 24))
      rw [Nat.mul_comm] at this
      omega
    rw [hmod]
    split
    · rename_i h
      right
      refine ⟨rfl, ?_⟩
      rcases h with h | h
      · omega
      · omega
    · rename_i h
      left
      refine ⟨rfl, ?_⟩
      push_neg at h
      omega

/-- Rounding never exceeds a representable upper bound of the exact value. -/
theorem roundMag_le (N d c : Nat) (hd : 0 < d) (hc : c < infBits) (h : N ≤ mag c * d) :
    roundMag N d < infBits ∧ mag (roundMag N d) ≤ mag c := by
  obtain ⟨k, M0, M, hr, -, hlo, -, hM0, hk, hM⟩ := roundMag_spec N d hd
  have hcm := mag_lt_of_expField_lt c (expField_lt_of_lt_infBits c hc)
  have hpk : 0 < 2 ^ k := by positivity
  -- the rounded significand stays below the bound
  have hstar : M * 2 ^ k ≤ mag c := by
    rcases hM with ⟨rfl, -⟩ | ⟨rfl, hup⟩
    · have h1 : M * 2 ^ k * d ≤ mag c * d := by
        calc M * 2 ^ k * d = M * (d * 2 ^ k) := by ring
          _ ≤ N := hlo
          _ ≤ mag c * d := h
      exact Nat.le_of_mul_le_mul_right h1 hd
    · have hDpos : 0 < d * 2 ^ k := Nat.mul_pos hd hpk
      have h1 : M0 * 2 ^ k * d < mag c * d := by
        calc M0 * 2 ^ k * d = M0 * (d * 2 ^ k) := by ring
          _ < N := by omega
          _ ≤ mag c * d := h
      have h2 : M0 * 2 ^ k < mag c := Nat.lt_of_mul_lt_mul_right h1
      have hdvd : 2 ^ k ∣ mag c := by
        rcases hk with rfl | hk
        · simp
        · apply two_pow_dvd_mag
          rw [pow_add]
          calc 2 ^ 23 * 2 ^ k ≤ M0 * 2 ^ k := Nat.mul_le_mul_right _ hk
            _ ≤ mag c := Nat.le_of_lt h2
      obtain ⟨t, ht⟩ := hdvd
      rw [ht] at h2 ⊢
      have h3 : M0 < t := by
        rw [Nat.mul_comm] at h2
        exact Nat.lt_of_mul_lt_mul_left h2
      calc (M0 + 1) * 2 ^ k = 2 ^ k * (M0 + 1) := Nat.mul_comm _ _
        _ ≤ 2 ^ k * t := Nat.mul_le_mul_left _ h3
  have hMle : M ≤ 2 ^ 24 := by
    rcases hM with ⟨rfl, -⟩ | ⟨rfl, -⟩ <;> omega
  have hkM : k = 0 ∨ 2 ^ 23 ≤ M := by
    rcases hk with hk | hk
    · exact Or.inl hk
    · rcases hM with ⟨rfl, -⟩ | ⟨rfl, -⟩
      · exact Or.inr hk
      · exact Or.inr (by omega)
  -- hence no overflow
  have hfin : k * 2 ^ 23 + M < infBits := by
    by_contra hcon
    simp only [infBits, not_lt] at hcon
    have hk253 : 253 ≤ k := by
      norm_num at hMle hcon
      omega
    have hM23 : 2 ^ 23 ≤ M := by
      rcases hkM with h0 | h0
      · omega
      · exact h0
    have hbig : 2 ^ 24 * 2 ^ 253 ≤ M * 2 ^ k := by
      by_cases hk254 : 254 ≤ k
      · calc 2 ^ 24 * 2 ^ 253 = 2 ^ 23 * 2 ^ 254 := by norm_num
          _ ≤ M * 2 ^ k := Nat.mul_le_mul hM23 (Nat.pow_le_pow_right (by norm_num) hk254)
      · have hk' : k = 253 := by omega
        subst hk'
        have : 2 ^ 24 ≤ M := by
          norm_num at hcon ⊢
          omega
        exact Nat.mul_le_mul_right _ this
    omega
  rw [hr, if_pos hfin]
  exact ⟨hfin, by rw [mag_pack k M hMle hkM hfin]; exact hstar⟩

/-- Rounding error: half a unit in the last place of the binade of `2 ^ B`. -/
theorem roundMag_err (N d B : Nat) (hd : 0 < d) (hB : 24 ≤ B) (hB2 : B ≤ 276)
    (h : N < 2 ^ B * d) :
    roundMag N d < infBits ∧
      2 * (mag (roundMag N d) * d) ≤ 2 * N + d * 2 ^ (B - 24) ∧
      2 * N ≤ 2 * (mag (roundMag N d) * d) + d * 2 ^ (B - 24) := by
  obtain ⟨k, M0, M, hr, hkdef, hlo, hhi, hM0, hk, hM⟩ := roundMag_spec N d hd
  have hq : N / d < 2 ^ B := Nat.div_lt_of_lt_mul (by rw [Nat.mul_comm]; exact h)
  have hkB : k ≤ B - 24 := by
    have := bitLen_le_of_lt _ _ hq
    omega
  have hMle : M ≤ 2 ^ 24 := by
    rcases hM with ⟨rfl, -⟩ | ⟨rfl, -⟩ <;> omega
  have hkM : k = 0 ∨ 2 ^ 23 ≤ M := by
    rcases hk with hk | hk
    · exact Or.inl hk
    · rcases hM with ⟨rfl, -⟩ | ⟨rfl, -⟩
      · exact Or.inr hk
      · exact Or.inr (by omega)
  have hfin : k * 2 ^ 23 + M < infBits := by
    simp only [infBits]
    norm_num at hMle ⊢
    omega
  have hD : d * 2 ^ k ≤ d * 2 ^ (B - 24) :=
    Nat.mul_le_mul_left _ (Nat.pow_le_pow_right (by norm_num) hkB)
  rw [hr, if_pos hfin, mag_pack k M hMle hkM hfin]
  refine ⟨hfin, ?_, ?_⟩
  · have e : M * 2 ^ k * d = M * (d * 2 ^ k) := by ring
    rw [e]
    rcases hM with ⟨rfl, h1⟩ | ⟨rfl, h1⟩
    · omega
    · rw [Nat.add_mul, Nat.one_mul] at hhi ⊢
      omega
  · have e : M * 2 ^ k * d = M * (d * 2 ^ k) := by ring
    rw [e]
    rcases hM with ⟨rfl, h1⟩ | ⟨rfl, h1⟩
    · omega
    · rw [Nat.add_mul, Nat.one_mul] at hhi ⊢
      omega

/-! ### Signs and finiteness -/

theorem expField_withSign (neg : Bool) (m : Nat) :
    expField (withSign neg m) = expField m := by
  unfold withSign expField
  cases neg
  · simp
  · norm_num
    omega

theorem manField_withSign (neg : Bool) (m : Nat) : manField (withSign neg m) = manField m := by
  unfold withSign manField
  cases neg
  · simp
  · norm_num
    omega

theorem mag_withSign (neg : Bool) (m : Nat) : mag (withSign neg m) = mag m := by
  unfold mag
  rw [expField_withSign neg m, manField_withSign]

theorem isNeg_withSign (neg : Bool) (m : Nat) (hm : m ≤ infBits) :
    isNeg (withSign neg m) = neg := by
  simp only [infBits] at hm
  unfold withSign isNeg
  cases neg
  · simp only [Bool.false_eq_true, if_false, decide_eq_false_iff_not]
    norm_num
    omega
  · simp only [if_true, decide_eq_true_eq]
    norm_num
    omega

theorem isFinite_withSign (neg : Bool) (m : Nat) (hm : m < infBits) :
    isFinite (withSign neg m) = true := by
  unfold isFinite
  rw [expField_withSign neg m]
  simpa using expField_lt_of_lt_infBits m hm

theorem isNaN_of_isFinite (a : Nat) (h : isFinite a = true) : isNaN a = false := by
  simp only [isFinite, decide_eq_true_eq] at h
  simp only [isNaN, decide_eq_false_iff_not]
  omega

theorem isInf_of_isFinite (a : Nat) (h : isFinite a = true) : isInf a = false := by
  simp only [isFinite, decide_eq_true_eq] at h
  simp only [isInf, decide_eq_false_iff_not]
  omega

theorem expField_fneg (a : Nat) : expField (fneg a) = expField a := by
  unfold fneg expField
  norm_num
  split <;> omega

theorem manField_fneg (a : Nat) : manField (fneg a) = manField a := by
  unfold fneg manField
  norm_num
  split <;> omega

theorem mag_fneg (a : Nat) : mag (fneg a) = mag a := by
  unfold mag
  rw [expField_fneg, manField_fneg]

theorem isFinite_fneg (a : Nat) : isFinite (fneg a) = isFinite a := by
  unfold isFinite
  rw [expField_fneg]

theorem isNeg_fneg (a : Nat) : isNeg (fneg a) = !isNeg a := by
  unfold fneg isNeg
  by_cases h : a % 2 ^ 32 < 2 ^ 31
  · rw [if_pos h]
    have h1 : 2 ^ 31 ≤ (a % 2 ^ 32 + 2 ^ 31) % 2 ^ 32 := by
      norm_num at h ⊢
      omega
    have h2 : ¬ 2 ^ 31 ≤ a % 2 ^ 32 := by omega
    rw [decide_eq_true h1, decide_eq_false h2]
    rfl
  · rw [if_neg h]
    have h1 : ¬ 2 ^ 31 ≤ (a % 2 ^ 32 - 2 ^ 31) % 2 ^ 32 := by
      norm_num at h ⊢
      omega
    have h2 : 2 ^ 31 ≤ a % 2 ^ 32 := by omega
    rw [decide_eq_false h1, decide_eq_true h2]
    rfl

theorem toInt_fneg (a : Nat) : toInt (fneg a) = -toInt a := by
  unfold toInt
  rw [isNeg_fneg, mag_fneg]
  cases isNeg a <;> simp

theorem natAbs_toInt (a : Nat) : (toInt a).natAbs = mag a := by
  unfold toInt
  split <;> simp

theorem toInt_withSign (neg : Bool) (m : Nat) (hm : m ≤ infBits) :
    toInt (withSign neg m) = if neg then -(mag m : Int) else (mag m : Int) := by
  unfold toInt
  rw [isNeg_withSign neg m hm, mag_withSign neg m]

/-! ### Integer square root -/

theorem isqrtAux_sq_le (T i r : Nat) (h : r * r ≤ T) :
    isqrtAux T i r * isqrtAux T i r ≤ T := by
  induction i generalizing r with
  | zero => simpa [isqrtAux] using h
  | succ i ih =>
    simp only [isqrtAux]
    split
    · rename_i h1
      exact ih _ h1
    · exact ih _ h

theorem lt_isqrtAux_succ_sq (T i r : Nat) (h : T < (r + 2 ^ i) * (r + 2 ^ i)) :
    T < (isqrtAux T i r + 1) * (isqrtAux T i r + 1) := by
  induction i generalizing r with
  | zero => simpa [isqrtAux] using h
  | succ i ih =>
    simp only [isqrtAux]
    split
    · apply ih
      have e : r + 2 ^ i + 2 ^ i = r + 2 ^ (i + 1) := by rw [pow_succ]; omega
      rw [e]
      exact h
    · rename_i h1
      exact ih _ (by omega)

theorem isqrt_sq_le (T : Nat) : isqrt T * isqrt T ≤ T :=
  isqrtAux_sq_le T _ 0 (by simp)

theorem lt_isqrt_succ_sq (T : Nat) : T < (isqrt T + 1) * (isqrt T + 1) := by
  apply lt_isqrtAux_succ_sq
  have h1 := lt_two_pow_bitLen T
  have h2 : 2 ^ bitLen T ≤ 2 ^ ((bitLen T / 2 + 1) + (bitLen T / 2 + 1)) :=
    Nat.pow_le_pow_right (by norm_num) (by omega)
  rw [pow_add] at h2
  simpa using Nat.lt_of_lt_of_le h1 h2

/-! ### Finite arithmetic -/

theorem roundMag_le_infBits (N d : Nat) : roundMag N d ≤ infBits := by
  have key : ∀ b : Nat, (if b < infBits then b else infBits) ≤ infBits := by
    intro b
    split <;> omega
  exact key _

theorem isFinite_of_lt_infBits (c : Nat) (hc : c < infBits) : isFinite c = true := by
  simpa [isFinite] using expField_lt_of_lt_infBits c hc

theorem fneg_bnd (a A : Nat) (ha : Bnd a A) : Bnd (fneg a) A := by
  obtain ⟨h1, h2⟩ := ha
  exact ⟨by rw [isFinite_fneg]; exact h1, by rw [mag_fneg]; exact h2⟩

theorem fmul_bnd (a b A B c C : Nat) (ha : Bnd a A) (hb : Bnd b B) (hc : c < infBits)
    (hC : mag c = C) (h : A * B ≤ C * 2 ^ 149) : Bnd (fmul a b) C := by
  obtain ⟨ha1, ha2⟩ := ha
  obtain ⟨hb1, hb2⟩ := hb
  unfold fmul
  rw [isNaN_of_isFinite a ha1, isNaN_of_isFinite b hb1, isInf_of_isFinite a ha1,
    isInf_of_isFinite b hb1]
  simp only [Bool.or_self, Bool.false_eq_true, if_false]
  have hN : mag a * mag b ≤ mag c * 2 ^ 149 := by
    rw [hC]
    exact le_trans (Nat.mul_le_mul ha2 hb2) h
  obtain ⟨h1, h2⟩ := roundMag_le _ _ c (by positivity) hc hN
  exact ⟨isFinite_withSign _ _ h1, by rw [mag_withSign, ← hC]; exact h2⟩

theorem fadd_bnd (a b A B c C : Nat) (ha : Bnd a A) (hb : Bnd b B) (hc : c < infBits)
    (hC : mag c = C) (h : A + B ≤ C) : Bnd (fadd a b) C := by
  obtain ⟨ha1, ha2⟩ := ha
  obtain ⟨hb1, hb2⟩ := hb
  unfold fadd
  rw [isNaN_of_isFinite a ha1, isNaN_of_isFinite b hb1, isInf_of_isFinite a ha1,
    isInf_of_isFinite b hb1]
  simp only [Bool.or_self, Bool.false_eq_true, if_false]
  split
  · refine ⟨isFinite_withSign _ _ (by simp [infBits]), ?_⟩
    rw [mag_withSign]
    simp [mag, expField, manField]
  · have hN : (toInt a + toInt b).natAbs ≤ mag c * 1 := by
      have h1 := Int.natAbs_add_le (toInt a) (toInt b)
      rw [natAbs_toInt, natAbs_toInt] at h1
      omega
    obtain ⟨h1, h2⟩ := roundMag_le _ _ c (by norm_num) hc hN
    exact ⟨isFinite_withSign _ _ h1, by rw [mag_withSign, ← hC]; exact h2⟩

theorem fadd_nonneg (a b : Nat) (ha : isFinite a = true) (hb : isFinite b = true)
    (hna : isNeg a = false) (hs : 0 ≤ toInt a + toInt b) : isNeg (fadd a b) = false := by
  unfold fadd
  rw [isNaN_of_isFinite a ha, isNaN_of_isFinite b hb, isInf_of_isFinite a ha,
    isInf_of_isFinite b hb, hna]
  simp only [Bool.or_self, Bool.false_eq_true, if_false, Bool.false_and]
  split
  · exact isNeg_withSign false 0 (by simp [infBits])
  · rw [isNeg_withSign _ _ (roundMag_le_infBits _ _)]
    simpa using hs

/-- Error of one float addition whose exact sum is below `2 ^ B` units. -/
theorem fadd_err (a b B : Nat) (ha : isFinite a = true) (hb : isFinite b = true)
    (hB : 24 ≤ B) (hB2 : B ≤ 276)
    (hlo : -((2 ^ B : Nat) : Int) < toInt a + toInt b)
    (hhi : toInt a + toInt b < ((2 ^ B : Nat) : Int)) :
    isFinite (fadd a b) = true ∧
      2 * toInt (fadd a b) ≤ 2 * (toInt a + toInt b) + ((2 ^ (B - 24) : Nat) : Int) ∧
      2 * (toInt a + toInt b) ≤ 2 * toInt (fadd a b) + ((2 ^ (B - 24) : Nat) : Int) := by
  unfold fadd
  rw [isNaN_of_isFinite a ha, isNaN_of_isFinite b hb, isInf_of_isFinite a ha,
    isInf_of_isFinite b hb]
  simp only [Bool.or_self, Bool.false_eq_true, if_false]
  have hm0 : mag 0 = 0 := by simp [mag, expField, manField]
  split
  · rename_i h0
    refine ⟨isFinite_withSign _ _ (by simp [infBits]), ?_, ?_⟩
    · rw [toInt_withSign _ _ (by simp [infBits]), hm0, h0]
      split <;> simp
    · rw [toInt_withSign _ _ (by simp [infBits]), hm0, h0]
      split <;> simp
  · rename_i h0
    have hN : (toInt a + toInt b).natAbs < 2 ^ B * 1 := by omega
    obtain ⟨h1, h2, h3⟩ := roundMag_err _ 1 B (by norm_num) hB hB2 hN
    refine ⟨isFinite_withSign _ _ h1, ?_, ?_⟩
    · rw [toInt_withSign _ _ (Nat.le_of_lt h1)]
      by_cases hs : toInt a + toInt b < 0
      · simp only [hs, decide_True, if_true]
        omega
      · simp only [hs, decide_False, Bool.false_eq_true, if_false]
        omega
    · rw [toInt_withSign _ _ (Nat.le_of_lt h1)]
      by_cases hs : toInt a + toInt b < 0
      · simp only [hs, decide_True, if_true]
        omega
      · simp only [hs, decide_False, Bool.false_eq_true, if_false]
        omega

theorem fsqrt_bnd (a A c C : Nat) (ha : Bnd a A) (hn : isNeg a = false) (hc : c < infBits)
    (hC : mag c = C) (h : A * 2 ^ 151 < (2 * C) * (2 * C)) :
    Bnd (fsqrt a) C ∧ isNeg (fsqrt a) = false := by
  obtain ⟨ha1, ha2⟩ := ha
  unfold fsqrt
  rw [isNaN_of_isFinite a ha1, isInf_of_isFinite a ha1, hn]
  simp only [Bool.false_eq_true, if_false]
  split
  · rename_i h0
    exact ⟨⟨ha1, by omega⟩, hn⟩
  · have hs := isqrt_sq_le (mag a * 2 ^ 151)
    have hT : mag a * 2 ^ 151 ≤ A * 2 ^ 151 := Nat.mul_le_mul_right _ ha2
    have hlt : isqrt (mag a * 2 ^ 151) < 2 * C := by
      by_contra hcon
      push_neg at hcon
      have := Nat.mul_le_mul hcon hcon
      omega
    have hN : 2 * isqrt (mag a * 2 ^ 151) +
        (if isqrt (mag a * 2 ^ 151) * isqrt (mag a * 2 ^ 151) = mag a * 2 ^ 151 then 0 else 1)
        ≤ mag c * 4 := by
      rw [hC]
      split <;> omega
    obtain ⟨h1, h2⟩ := roundMag_le _ _ c (by norm_num) hc hN
    exact ⟨⟨isFinite_of_lt_infBits _ h1, by rw [← hC]; exact h2⟩, isNeg_of_lt_infBits _ h1⟩

end F32

/-! ## Constants of the header, evaluated -/

theorem lit_zero : lit 0 1 = 0 := by decide!

theorem lit_one : lit 10 1 = 0x3F800000 := by decide!

theorem lit_c0 : lit 15707288 7 = 0x3FC90DA4 := by decide!

theorem lit_c1 : lit 2121144 7 = 0x3E593484 := by decide!

theorem lit_c2 : lit 742610 7 = 0x3D981627 := by decide!

theorem lit_c3 : lit 187293 7 = 0x3C996E30 := by decide!

theorem fsl_PI_eq : fsl_PI = 0x40490FDB := by decide!

theorem fsl_HALF_PI_eq : fsl_HALF_PI = 0x3FC90FDB := by decide!

/-! ## Magnitude of `acosFast4` on `[-1, 1]` -/

/-- On `[-1, 1]` every intermediate of `acosFast4` is finite and the result has
magnitude at most `4`. -/
theorem acosFast4_bnd (x : Nat) (hx : Bnd x (2 ^ 149)) : Bnd (acosFast4 x) (2 ^ 151) := by
  have hone : Bnd (lit 10 1) (2 ^ 149) := by
    rw [lit_one]
    exact ⟨by decide, by decide!⟩
  have hc0 : Bnd (lit 15707288 7) (13 * 2 ^ 146) := by
    rw [lit_c0]
    exact ⟨by decide, by decide!⟩
  have hc1 : Bnd (lit 2121144 7) (2 ^ 147) := by
    rw [lit_c1]
    exact ⟨by decide, by decide!⟩
  have hc2 : Bnd (lit 742610 7) (3 * 2 ^ 144) := by
    rw [lit_c2]
    exact ⟨by decide, by decide!⟩
  have hc3 : Bnd (lit 187293 7) (2 ^ 144) := by
    rw [lit_c3]
    exact ⟨by decide, by decide!⟩
  have hx2 : Bnd (fmul x x) (2 ^ 149) :=
    fmul_bnd _ _ _ _ 0x3F800000 _ hx hx (by decide) (by decide!) (by norm_num)
  have hx3 : Bnd (fmul (fmul x x) x) (2 ^ 149) :=
    fmul_bnd _ _ _ _ 0x3F800000 _ hx2 hx (by decide) (by decide!) (by norm_num)
  have ht1 : Bnd (fmul (fneg (lit 2121144 7)) x) (2 ^ 147) :=
    fmul_bnd _ _ _ _ 0x3E800000 _ (fneg_bnd _ _ hc1) hx (by decide) (by decide!) (by norm_num)
  have hs1 : Bnd (fadd (fmul (fneg (lit 2121144 7)) x) (lit 15707288 7)) (15 * 2 ^ 146) :=
    fadd_bnd _ _ _ _ 0x3FF00000 _ ht1 hc0 (by decide) (by decide!) (by norm_num)
  have ht2 : Bnd (fmul (lit 742610 7) (fmul x x)) (3 * 2 ^ 144) :=
    fmul_bnd _ _ _ _ 0x3DC00000 _ hc2 hx2 (by decide) (by decide!) (by norm_num)
  have hs2 : Bnd (fadd (fmul (lit 742610 7) (fmul x x))
      (fadd (fmul (fneg (lit 2121144 7)) x) (lit 15707288 7))) (63 * 2 ^ 144) :=
    fadd_bnd _ _ _ _ 0x3FFC0000 _ ht2 hs1 (by decide) (by decide!) (by norm_num)
  have ht3 : Bnd (fmul (fneg (lit 187293 7)) (fmul (fmul x x) x)) (2 ^ 144) :=
    fmul_bnd _ _ _ _ 0x3D000000 _ (fneg_bnd _ _ hc3) hx3 (by decide) (by decide!) (by norm_num)
  have hs3 : Bnd (fadd (fmul (fneg (lit 187293 7)) (fmul (fmul x x) x))
      (fadd (fmul (lit 742610 7) (fmul x x))
        (fadd (fmul (fneg (lit 2121144 7)) x) (lit 15707288 7)))) (2 ^ 150) :=
    fadd_bnd _ _ _ _ 0x40000000 _ ht3 hs2 (by decide) (by decide!) (by norm_num)
  have hd : Bnd (fsub (lit 10 1) x) (2 ^ 150) :=
    fadd_bnd _ _ _ _ 0x40000000 _ hone (fneg_bnd _ _ hx) (by decide) (by decide!) (by norm_num)
  have hdn : isNeg (fsub (lit 10 1) x) = false := by
    apply fadd_nonneg _ _ hone.1 (fneg_bnd _ _ hx).1
    · rw [lit_one]
      decide
    · rw [toInt_fneg, lit_one]
      have h1 : toInt 0x3F800000 = 2 ^ 149 := by decide!
      have h2 : toInt x ≤ ((toInt x).natAbs : Int) := Int.le_natAbs
      have h3 := hx.2
      rw [natAbs_toInt] at h2
      rw [h1]
      have h4 : ((mag x : Nat) : Int) ≤ ((2 ^ 149 : Nat) : Int) := Int.ofNat_le.2 h3
      push_cast at h4
      linarith
  have hq := (fsqrt_bnd _ _ 0x40000000 (2 ^ 150) hd hdn (by decide) (by decide!)
    (by norm_num)).1
  have hp := fmul_bnd _ _ _ _ 0x40800000 (2 ^ 151) hq hs3 (by decide) (by decide!)
    (by norm_num)
  unfold acosFast4
  simp only
  split
  · exact hp
  · exact fneg_bnd _ _ hp

theorem bnd_of_toRat (x : Nat) (hfin : isFinite x = true) (hlo : -1 ≤ toRat x)
    (hhi : toRat x ≤ 1) : Bnd x (2 ^ 149) := by
  refine ⟨hfin, ?_⟩
  unfold toRat at hlo hhi
  rw [le_div_iff₀ (by positivity)] at hlo
  rw [div_le_iff₀ (by positivity)] at hhi
  have h1 : -(2 ^ 149 : Int) ≤ toInt x := by
    have : ((-(2 ^ 149 : Int) : Int) : ℚ) ≤ (toInt x : ℚ) := by
      push_cast
      linarith
    exact_mod_cast this
  have h2 : toInt x ≤ (2 ^ 149 : Int) := by
    have : (toInt x : ℚ) ≤ (((2 ^ 149 : Int) : Int) : ℚ) := by
      push_cast
      linarith
    exact_mod_cast this
  rw [← natAbs_toInt]
  omega

/-- The float sum `asinFast4 x + acosFast4 x` stays within `2 ^ 127 + 2 ^ 125` units of
`fsl_HALF_PI`, and the exact sum of the two floats within `2 ^ 127` units. -/
theorem asin_add_acos_units (x : Nat) (hx : Bnd x (2 ^ 149)) :
    isFinite (asinFast4 x) = true ∧
    isFinite (fadd (asinFast4 x) (acosFast4 x)) = true ∧
    toInt fsl_HALF_PI - 2 ^ 127 ≤ toInt (asinFast4 x) + toInt (acosFast4 x) ∧
    toInt (asinFast4 x) + toInt (acosFast4 x) ≤ toInt fsl_HALF_PI + 2 ^ 127 ∧
    toInt fsl_HALF_PI - (2 ^ 127 + 2 ^ 125) ≤ toInt (fadd (asinFast4 x) (acosFast4 x)) ∧
    toInt (fadd (asinFast4 x) (acosFast4 x)) ≤ toInt fsl_HALF_PI + (2 ^ 127 + 2 ^ 125) := by
  have ha := acosFast4_bnd x hx
  have hH : toInt fsl_HALF_PI = 13176795 * 2 ^ 126 := by decide!
  have hHf : isFinite fsl_HALF_PI = true := by decide!
  have hasin : asinFast4 x = fadd fsl_HALF_PI (fneg (acosFast4 x)) := rfl
  have hA1 : toInt (acosFast4 x) ≤ ((toInt (acosFast4 x)).natAbs : Int) := Int.le_natAbs
  have hA2 : -toInt (acosFast4 x) ≤ ((toInt (acosFast4 x)).natAbs : Int) := by
    rw [← Int.natAbs_neg]
    exact Int.le_natAbs
  rw [natAbs_toInt] at hA1 hA2
  have hA3 : ((mag (acosFast4 x) : Nat) : Int) ≤ ((2 ^ 151 : Nat) : Int) := Int.ofNat_le.2 ha.2
  obtain ⟨e1, e2, e3⟩ := fadd_err fsl_HALF_PI (fneg (acosFast4 x)) 152 hHf
    (by rw [isFinite_fneg]; exact ha.1) (by norm_num) (by norm_num)
    (by rw [toInt_fneg, hH]; norm_num at hA3 ⊢; omega)
    (by rw [toInt_fneg, hH]; norm_num at hA3 ⊢; omega)
  rw [← hasin] at e1
  rw [← hasin, toInt_fneg] at e2 e3
  norm_num at e2 e3 hA3
  obtain ⟨f1, f2, f3⟩ := fadd_err (asinFast4 x) (acosFast4 x) 150 e1 ha.1
    (by norm_num) (by norm_num)
    (by rw [hH] at e2 e3; norm_num at e2 e3 ⊢; omega)
    (by rw [hH] at e2 e3; norm_num at e2 e3 ⊢; omega)
  norm_num at f2 f3
  refine ⟨e1, f1, ?_, ?_, ?_, ?_⟩
  · norm_num
    omega
  · norm_num
    omega
  · norm_num
    omega
  · norm_num
    omega

set_option maxRecDepth 10000 in
/-- A value within `2 ^ 127 + 2 ^ 125` units of `fsl_HALF_PI` is within `1e-6` of `π / 2`. -/
theorem near_half_pi (t : Int) (h1 : 13176795 * 2 ^ 126 - (2 ^ 127 + 2 ^ 125) ≤ t)
    (h2 : t ≤ 13176795 * 2 ^ 126 + (2 ^ 127 + 2 ^ 125)) :
    |(((t : ℚ) / 2 ^ 149 : ℚ) : ℝ) - Real.pi / 2| ≤ 1 / 1000000 := by
  have p1 := Real.pi_gt_d6
  have p2 := Real.pi_lt_d6
  have r1 : ((13176795 * 2 ^ 126 - (2 ^ 127 + 2 ^ 125) : Int) : ℝ) ≤ (t : ℝ) := Int.cast_le.2 h1
  have r2 : (t : ℝ) ≤ ((13176795 * 2 ^ 126 + (2 ^ 127 + 2 ^ 125) : Int) : ℝ) := Int.cast_le.2 h2
  push_cast at r1 r2 ⊢
  rw [abs_le]
  constructor
  · rw [le_sub_iff_add_le, le_div_iff₀ (by positivity)]
    norm_num at r1 ⊢
    linarith
  · rw [sub_le_iff_le_add, div_le_iff₀ (by positivity)]
    norm_num at r2 ⊢
    linarith

/-- C5: for every binary32 `x` in `[-1, 1]`, `asinFast4 x` is `fsl_HALF_PI - acosFast4 x`,
and `asinFast4 x + acosFast4 x` is within `1e-6` of `π / 2`, both for the float sum and
for the exact sum of the two returned floats. -/
theorem asinFast4_add_acosFast4 (x : Nat) (_hx : x < 2 ^ 32) (hfin : isFinite x = true)
    (hlo : -1 ≤ toRat x) (hhi : toRat x ≤ 1) :
    asinFast4 x = fsub fsl_HALF_PI (acosFast4 x) ∧
    isFinite (fadd (asinFast4 x) (acosFast4 x)) = true ∧
    |((toRat (fadd (asinFast4 x) (acosFast4 x)) : ℚ) : ℝ) - Real.pi / 2| ≤ 1 / 1000000 ∧
    |((toRat (asinFast4 x) : ℚ) : ℝ) + ((toRat (acosFast4 x) : ℚ) : ℝ) - Real.pi / 2|
      ≤ 1 / 1000000 := by
  obtain ⟨-, g2, g3, g4, g5, g6⟩ := asin_add_acos_units x (bnd_of_toRat x hfin hlo hhi)
  have hH : toInt fsl_HALF_PI = 13176795 * 2 ^ 126 := by decide!
  rw [hH] at g3 g4 g5 g6
  have hdef : asinFast4 x = fsub fsl_HALF_PI (acosFast4 x) := by
    unfold asinFast4
    rfl
  refine ⟨hdef, g2, ?_, ?_⟩
  · exact near_half_pi _ g5 g6
  · have h := near_half_pi (toInt (asinFast4 x) + toInt (acosFast4 x)) (by omega) (by omega)
    have e : (((toInt (asinFast4 x) + toInt (acosFast4 x) : Int) : ℚ) / 2 ^ 149 : ℚ)
        = toRat (asinFast4 x) + toRat (acosFast4 x) := by
      unfold toRat
      rw [Int.cast_add, add_div]
    rw [e, Rat.cast_add] at h
    exact h

theorem asinFast4_add_acosFast4_witness :
    (0x3F000000 : Nat) < 2 ^ 32 ∧ isFinite 0x3F000000 = true ∧
    -1 ≤ toRat 0x3F000000 ∧ toRat 0x3F000000 ≤ 1 ∧
    (asinFast4 0x3F000000 = fsub fsl_HALF_PI (acosFast4 0x3F000000) ∧
    isFinite (fadd (asinFast4 0x3F000000) (acosFast4 0x3F000000)) = true ∧
    |((toRat (fadd (asinFast4 0x3F000000) (acosFast4 0x3F000000)) : ℚ) : ℝ) - Real.pi / 2|
      ≤ 1 / 1000000 ∧
    |((toRat (asinFast4 0x3F000000) : ℚ) : ℝ) + ((toRat (acosFast4 0x3F000000) : ℚ) : ℝ)
      - Real.pi / 2| ≤ 1 / 1000000) := by
  have h0 : toInt 0x3F000000 = 2 ^ 148 := by decide!
  have h1 : -1 ≤ toRat 0x3F000000 := by
    unfold toRat
    rw [h0]
    norm_num
  have h2 : toRat 0x3F000000 ≤ 1 := by
    unfold toRat
    rw [h0]
    norm_num
  exact ⟨by decide, by decide, h1, h2,
    asinFast4_add_acosFast4 0x3F000000 (by decide) (by decide) h1 h2⟩

/-! ## The arccosine on its failing half -/

theorem toRat_of_toInt (b : Nat) (n : Int) (h : toInt b = n) : toRat b = (n : ℚ) / 2 ^ 149 := by
  unfold toRat
  rw [h]

/-- C1: at `inX = -1.0f` the code returns `0xC029C7F3` (about `-2.6528`), more than
`7e-5` away from `arccos (-1) = π`. -/
theorem acosFast4_neg_one_off :
    acosFast4 0xBF800000 = 0xC029C7F3 ∧ toRat 0xBF800000 = -1 ∧
    (7 : ℝ) / 100000 <
      |((toRat (acosFast4 0xBF800000) : ℚ) : ℝ) - Real.arccos ((toRat 0xBF800000 : ℚ) : ℝ)| := by
  have e : acosFast4 0xBF800000 = 0xC029C7F3 := by decide!
  have hx : toRat 0xBF800000 = -1 := by
    rw [toRat_of_toInt _ (-(2 ^ 149)) (by decide!)]
    norm_num
  have hy : toRat 0xC029C7F3 = -(11126771 / 4194304) := by
    rw [toRat_of_toInt _ (-(11126771 * 2 ^ 127)) (by decide!)]
    norm_num
  refine ⟨e, hx, ?_⟩
  rw [e, hx, hy]
  have p1 := Real.pi_gt_d6
  push_cast
  rw [Real.arccos_neg_one, lt_abs]
  right
  linarith

/-- C2: at `x = 0.5` the code gives `acosFast4 (-x) = 0xC0051245` (about `-2.0792`) and
`acosFast4 x = 0x3F86090F` (about `1.0472`), so `acosFast4 (-x)` is more than `7e-5` away
from `π - acosFast4 x`. -/
theorem acosFast4_mirror_off :
    fneg 0x3F000000 = 0xBF000000 ∧
    acosFast4 0xBF000000 = 0xC0051245 ∧ acosFast4 0x3F000000 = 0x3F86090F ∧
    (7 : ℝ) / 100000 <
      |((toRat (acosFast4 0xBF000000) : ℚ) : ℝ)
        - (Real.pi - ((toRat (acosFast4 0x3F000000) : ℚ) : ℝ))| := by
  have e1 : acosFast4 0xBF000000 = 0xC0051245 := by decide!
  have e2 : acosFast4 0x3F000000 = 0x3F86090F := by decide!
  have h1 : toRat 0xC0051245 = -(8720965 / 4194304) := by
    rw [toRat_of_toInt _ (-(8720965 * 2 ^ 127)) (by decide!)]
    norm_num
  have h2 : toRat 0x3F86090F = 8784143 / 8388608 := by
    rw [toRat_of_toInt _ (8784143 * 2 ^ 126) (by decide!)]
    norm_num
  have key : ∀ a b : Nat, a = 0xC0051245 → b = 0x3F86090F →
      (7 : ℝ) / 100000 < |((toRat a : ℚ) : ℝ) - (Real.pi - ((toRat b : ℚ) : ℝ))| := by
    intro a b ha hb
    subst ha hb
    rw [h1, h2]
    have p1 := Real.pi_gt_d6
    push_cast
    rw [lt_abs]
    right
    linarith
  exact ⟨by decide!, e1, e2, key _ _ e1 e2⟩

/-- C3: at `inX = 0.0f` the comparison `x1 > 0.0f` is false, the code returns `-s`, that is
`0xBFC90DA4` (about `-1.5707288`), more than `7e-5` away from `π / 2`. -/
theorem acosFast4_zero_off :
    fgt 0 (lit 0 1) = false ∧ acosFast4 0 = 0xBFC90DA4 ∧
    (7 : ℝ) / 100000 < |((toRat (acosFast4 0) : ℚ) : ℝ) - Real.pi / 2| := by
  have e : acosFast4 0 = 0xBFC90DA4 := by decide!
  have h1 : toRat 0xBFC90DA4 = -(3294057 / 2097152) := by
    rw [toRat_of_toInt _ (-(13176228 * 2 ^ 126)) (by decide!)]
    norm_num
  refine ⟨by decide!, e, ?_⟩
  rw [e, h1]
  have p1 := Real.pi_gt_d6
  push_cast
  rw [lt_abs]
  right
  linarith

/-- C4: at `inX = 1.0f` the factor `sqrt(1.0f - x1)` is `+0`, the branch `x1 > 0.0f` is
taken and `acosFast4` returns exactly `+0`, within `7e-5` of `0`. -/
theorem acosFast4_one :
    toRat 0x3F800000 = 1 ∧ fsqrt (fsub (lit 10 1) 0x3F800000) = 0 ∧
    fgt 0x3F800000 (lit 0 1) = true ∧ acosFast4 0x3F800000 = 0 ∧
    toRat (acosFast4 0x3F800000) = 0 ∧
    |((toRat (acosFast4 0x3F800000) : ℚ) : ℝ) - 0| ≤ 7 / 100000 := by
  have e : acosFast4 0x3F800000 = 0 := by decide!
  have hx : toRat 0x3F800000 = 1 := by
    rw [toRat_of_toInt _ (2 ^ 149) (by decide!)]
    norm_num
  have h0 : toRat 0 = 0 := by
    rw [toRat_of_toInt _ 0 (by decide!)]
    norm_num
  refine ⟨hx, by decide!, by decide!, e, by rw [e, h0], ?_⟩
  rw [e, h0]
  norm_num

/-! ## The arctangent -/

theorem arctan_inv_seven_lower : (7 : ℝ) / 50 ≤ Real.arctan 7⁻¹ := by
  have hs : Real.sin (7 / 50) < 7 / 50 := Real.sin_lt (by norm_num)
  have hc : 1 - (7 / 50 : ℝ) ^ 2 / 2 ≤ Real.cos (7 / 50) := Real.one_sub_sq_div_two_le_cos
  have hcpos : 0 < Real.cos (7 / 50) := by
    norm_num at hc
    linarith
  have hy : Real.tan (7 / 50) ≤ 7⁻¹ := by
    rw [Real.tan_eq_sin_div_cos, div_le_iff₀ hcpos]
    norm_num at hc
    linarith
  have p1 := Real.pi_gt_three
  have h1 : Real.arctan (Real.tan (7 / 50)) = 7 / 50 :=
    Real.arctan_tan (by linarith) (by linarith)
  calc (7 : ℝ) / 50 = Real.arctan (Real.tan (7 / 50)) := h1.symm
    _ ≤ Real.arctan 7⁻¹ := Real.arctan_strictMono.monotone hy

theorem arctan_half_lower : (4626 : ℝ) / 10000 ≤ Real.arctan (1 / 2) := by
  have h1 := Real.two_mul_arctan_inv_2_sub_arctan_inv_7
  have h2 := arctan_inv_seven_lower
  have p1 := Real.pi_gt_d6
  have e : (1 / 2 : ℝ) = 2⁻¹ := by norm_num
  rw [e]
  linarith

/-- C6: at `inX = 0.5f` the code returns `0x3EECA090` (about `0.4621625`), more than `7e-5`
below `arctan 0.5` (about `0.4636476`). -/
theorem atanFast4_half_off :
    toRat 0x3F000000 = 1 / 2 ∧ atanFast4 0x3F000000 = 0x3EECA090 ∧
    (7 : ℝ) / 100000 <
      |((toRat (atanFast4 0x3F000000) : ℚ) : ℝ) - Real.arctan ((toRat 0x3F000000 : ℚ) : ℝ)| := by
  have e : atanFast4 0x3F000000 = 0x3EECA090 := by decide!
  have hx : toRat 0x3F000000 = 1 / 2 := by
    rw [toRat_of_toInt _ (2 ^ 148) (by decide!)]
    norm_num
  have hy : toRat 0x3EECA090 = 969225 / 2097152 := by
    rw [toRat_of_toInt _ (15507600 * 2 ^ 124) (by decide!)]
    norm_num
  refine ⟨hx, e, ?_⟩
  rw [e, hx, hy]
  have h := arctan_half_lower
  push_cast
  rw [lt_abs]
  right
  linarith

/-- C7, as stated, fails: `atanFast4(1.0f)` is neither the float nearest to `0.7854` nor
the number `0.7854`. -/
theorem atanFast4_one_ne :
    atanFast4 0x3F800000 ≠ lit 7854 4 ∧ toRat (atanFast4 0x3F800000) ≠ 7854 / 10000 := by
  have e : atanFast4 0x3F800000 = 0x3F490FFA := by decide!
  have hy : toRat 0x3F490FFA = 6588413 / 8388608 := by
    rw [toRat_of_toInt _ (13176826 * 2 ^ 125) (by decide!)]
    norm_num
  refine ⟨by decide!, ?_⟩
  rw [e, hy]
  norm_num

/-- C7, amended: `atanFast4(1.0f)` is `0x3F490FFA` (about `0.78540003`), one unit in the
last place above the float nearest to `0.7854`; the exact sum
`-0.1784 - 0.0663 + 1.0301` is `0.7854`, the float result is within `2 ^ (-24)` of it and
within `7e-5` of `π / 4`. -/
theorem atanFast4_one :
    toRat 0x3F800000 = 1 ∧ atanFast4 0x3F800000 = 0x3F490FFA ∧
    lit 7854 4 = 0x3F490FF9 ∧
    (-1784 - 663 + 10301 : ℚ) / 10000 = 7854 / 10000 ∧
    |toRat (atanFast4 0x3F800000) - 7854 / 10000| ≤ 1 / 2 ^ 24 ∧
    |((toRat (atanFast4 0x3F800000) : ℚ) : ℝ) - Real.pi / 4| ≤ 7 / 100000 := by
  have e : atanFast4 0x3F800000 = 0x3F490FFA := by decide!
  have hx : toRat 0x3F800000 = 1 := by
    rw [toRat_of_toInt _ (2 ^ 149) (by decide!)]
    norm_num
  have hy : toRat 0x3F490FFA = 6588413 / 8388608 := by
    rw [toRat_of_toInt _ (13176826 * 2 ^ 125) (by decide!)]
    norm_num
  refine ⟨hx, e, by decide!, by norm_num, ?_, ?_⟩
  · rw [e, hy, abs_le]
    constructor <;> norm_num
  · rw [e, hy]
    have p1 := Real.pi_gt_d6
    have p2 := Real.pi_lt_d6
    push_cast
    rw [abs_le]
    constructor <;> linarith

/-! ## Square root through the reciprocal square root -/

/-- C8: `fastSqrtNR1` and `fastSqrtNR2` are `inX * fastRcpSqrtNR1(inX)` and
`inX * fastRcpSqrtNR2(inX)`, one float multiplication and no square-root refinement step,
for every bit pattern. -/
theorem fastSqrt_eq_mul_fastRcpSqrt (x : Nat) :
    fastSqrtNR1 x = fmul x (fastRcpSqrtNR1 x) ∧ fastSqrtNR2 x = fmul x (fastRcpSqrtNR2 x) :=
  ⟨rfl, rfl⟩

/-! ## The reciprocal -/

/-- C9: `fastRcpNR2(4.0f)` starts from the seed `0x3E7312AC` and returns `0x3E7FFF93`
(about `0.2499984`), whose relative error against `0.25` is about `6.5e-6`, above `5e-7`. -/
theorem fastRcpNR2_four_off :
    toRat 0x40800000 = 4 ∧
    rcpIEEEIntApproximation 0x40800000 IEEE_INT_RCP_CONST_NR2 = 0x3E7312AC ∧
    fastRcpNR2 0x40800000 = 0x3E7FFF93 ∧
    (5 : ℚ) / 10000000 < |toRat (fastRcpNR2 0x40800000) - 1 / 4| / (1 / 4) := by
  have e : fastRcpNR2 0x40800000 = 0x3E7FFF93 := by decide!
  have hx : toRat 0x40800000 = 4 := by
    rw [toRat_of_toInt _ (2 ^ 151) (by decide!)]
    norm_num
  have hy : toRat 0x3E7FFF93 = 16777107 / 67108864 := by
    rw [toRat_of_toInt _ (16777107 * 2 ^ 123) (by decide!)]
    norm_num
  refine ⟨hx, by decide!, e, ?_⟩
  rw [e, hy]
  norm_num [abs_of_neg]

/-- C10: at `inX = 1.0f`, a positive normal float, `fastRcpNR0` returns `0x3F7311C2`
(about `0.94949`), whose relative error against `1 / 1` is about `5.05` percent, above
`0.4` percent. -/
theorem fastRcpNR0_one_off :
    isPosNormal 0x3F800000 = true ∧ toRat 0x3F800000 = 1 ∧
    fastRcpNR0 0x3F800000 = 0x3F7311C2 ∧
    (4 : ℚ) / 1000 <
      |toRat (fastRcpNR0 0x3F800000) - 1 / toRat 0x3F800000| / (1 / toRat 0x3F800000) := by
  have e : fastRcpNR0 0x3F800000 = 0x3F7311C2 := by decide!
  have hx : toRat 0x3F800000 = 1 := by
    rw [toRat_of_toInt _ (2 ^ 149) (by decide!)]
    norm_num
  have hy : toRat 0x3F7311C2 = 7964897 / 8388608 := by
    rw [toRat_of_toInt _ (15929794 * 2 ^ 125) (by decide!)]
    norm_num
  refine ⟨by decide, hx, e, ?_⟩
  rw [e, hx, hy]
  norm_num [abs_of_neg]

/-! ## The square-root seed -/

/-- C11: at `inX = 1.0f`, a positive normal float, `fastSqrtNR0` returns
`0x1FBD1DF5 + 0x1FC00000 = 0x3F7D1DF5` (about `0.98874`), whose relative error against
`sqrt 1 = 1` is about `1.13` percent, above `0.7` percent. -/
theorem fastSqrtNR0_one_off :
    isPosNormal 0x3F800000 = true ∧ toRat 0x3F800000 = 1 ∧
    fastSqrtNR0 0x3F800000 = 0x3F7D1DF5 ∧
    (7 : ℝ) / 1000 <
      |((toRat (fastSqrtNR0 0x3F800000) : ℚ) : ℝ) - Real.sqrt ((toRat 0x3F800000 : ℚ) : ℝ)|
        / Real.sqrt ((toRat 0x3F800000 : ℚ) : ℝ) := by
  have e : fastSqrtNR0 0x3F800000 = 0x3F7D1DF5 := by decide!
  have hx : toRat 0x3F800000 = 1 := by
    rw [toRat_of_toInt _ (2 ^ 149) (by decide!)]
    norm_num
  have hy : toRat 0x3F7D1DF5 = 16588277 / 16777216 := by
    rw [toRat_of_toInt _ (16588277 * 2 ^ 125) (by decide!)]
    norm_num
  refine ⟨by decide, hx, e, ?_⟩
  rw [e, hx, hy]
  push_cast
  rw [Real.sqrt_one, div_one, lt_abs]
  right
  norm_num

/-! ## One refinement step in exact arithmetic -/

/-- C15: in exact arithmetic one reciprocal step squares the residual,
`1 - x * y1 = (1 - x * y0) ^ 2`, and one reciprocal-square-root step sends
`(1 + e) / sqrt x` to `(1 - (3/2) e^2 - (1/2) e^3) / sqrt x`. -/
theorem newtonRaphson_quadratic (x y0 e : ℝ) (hx : 0 < x) :
    1 - x * rcpNewtonRaphsonExact x y0 = (1 - x * y0) ^ 2 ∧
    rcpSqrtNewtonRaphsonExact (0.5 * x) ((1 + e) / Real.sqrt x)
      = (1 - 3 / 2 * e ^ 2 - 1 / 2 * e ^ 3) / Real.sqrt x := by
  constructor
  · unfold rcpNewtonRaphsonExact
    ring
  · obtain ⟨s, hs, rfl⟩ : ∃ s : ℝ, 0 < s ∧ x = s ^ 2 :=
      ⟨Real.sqrt x, Real.sqrt_pos.2 hx, (Real.sq_sqrt (le_of_lt hx)).symm⟩
    rw [Real.sqrt_sq (le_of_lt hs)]
    unfold rcpSqrtNewtonRaphsonExact
    have hne : s ≠ 0 := ne_of_gt hs
    field_simp
    ring

theorem newtonRaphson_quadratic_witness :
    (0 : ℝ) < 4 ∧
    (1 - 4 * rcpNewtonRaphsonExact (4 : ℝ) (1 / 5) = (1 - 4 * (1 / 5)) ^ 2 ∧
    rcpSqrtNewtonRaphsonExact (0.5 * 4) ((1 + 1 / 10) / Real.sqrt 4)
      = (1 - 3 / 2 * (1 / 10 : ℝ) ^ 2 - 1 / 2 * (1 / 10) ^ 3) / Real.sqrt 4) :=
  ⟨by norm_num, newtonRaphson_quadratic 4 (1 / 5) (1 / 10) (by norm_num)⟩

/-! ## The seeds as integer arithmetic on bit patterns -/

theorem fastRcpNR0_bits (x : Nat) (hx : x < 2 ^ 32) :
    fastRcpNR0 x = (0x7EF311C2 + 2 ^ 32 - x) % 2 ^ 32 := by
  unfold fastRcpNR0 rcpIEEEIntApproximation asfloat asint wrap32 IEEE_INT_RCP_CONST_NR0
  norm_num at hx ⊢
  omega

/-- The arithmetic right shift by one is the floor of the half. -/
theorem shiftRight_one_eq (i : Int) : i >>> (1 : Int) = i / 2 := by
  cases i with
  | ofNat m =>
    have h := Int.shiftRight_coe_nat m 1
    simp only [Nat.cast_one] at h
    rw [Int.ofNat_eq_coe, h, Nat.shiftRight_one]
    omega
  | negSucc m =>
    have h := Int.shiftRight_negSucc m 1
    simp only [Nat.cast_one] at h
    rw [h, Nat.shiftRight_one, Int.negSucc_eq, Int.negSucc_eq]
    omega

theorem sqrtIEEEIntApproximation_eq (x : Nat) (c : Int) :
    sqrtIEEEIntApproximation x c = asfloat (wrap32 (c + asint x / 2)) := by
  show asfloat (wrap32 (c + (asint x >>> 1))) = _
  rw [shiftRight_one_eq]

theorem rcpSqrtIEEEIntApproximation_eq (x : Nat) (c : Int) :
    rcpSqrtIEEEIntApproximation x c = asfloat (wrap32 (c - asint x / 2)) := by
  show asfloat (wrap32 (c - (asint x >>> 1))) = _
  rw [shiftRight_one_eq]

theorem fastSqrtNR0_bits (x : Nat) (hx : x < 2 ^ 32) :
    fastSqrtNR0 x =
      if x < 2 ^ 31 then 0x1FBD1DF5 + x / 2 else (0x1FBD1DF5 + 2 ^ 32 + x / 2 - 2 ^ 31) % 2 ^ 32 := by
  show sqrtIEEEIntApproximation x 0x1FBD1DF5 = _
  rw [sqrtIEEEIntApproximation_eq]
  unfold asfloat asint wrap32
  norm_num at hx ⊢
  split <;> omega

theorem fastRcpSqrtNR0_bits (x : Nat) (hx : x < 2 ^ 32) :
    fastRcpSqrtNR0 x =
      if x < 2 ^ 31 then 0x5f3759df - x / 2 else 0x5f3759df + 2 ^ 31 - x / 2 := by
  show rcpSqrtIEEEIntApproximation x 0x5f3759df = _
  rw [rcpSqrtIEEEIntApproximation_eq]
  unfold asfloat asint wrap32
  norm_num at hx ⊢
  split <;> omega

/-! ## Finiteness of the seeds -/

/-- C16, as stated, fails: `fastRcpNR0` maps the positive normal float `0x7F000000`
(about `1.7e38`) to the NaN pattern `0xFFF311C2`, `fastSqrtNR0` maps `-2.0f` and
`fastRcpSqrtNR0` maps `-0.5f` to patterns whose exponent field is all ones. -/
theorem seed_not_always_finite :
    isPosNormal 0x7F000000 = true ∧ fastRcpNR0 0x7F000000 = 0xFFF311C2 ∧
    isFinite (fastRcpNR0 0x7F000000) = false ∧
    isFinite (fastSqrtNR0 0xC0000000) = false ∧
    isFinite (fastRcpSqrtNR0 0xBF000000) = false := by
  refine ⟨by decide, by decide!, by decide!, by decide!, by decide!⟩

/-- C16, amended: for every 32-bit pattern each tier-0 seed returns a finite float except
on one range of inputs each: `fastRcpNR0` when the low 31 bits lie in
`[0x7EF311C3, 0x7F7311C2]`, `fastSqrtNR0` on `[0xBF85C416, 0xC085C415]` and
`fastRcpSqrtNR0` on `[0xBE6EB3C0, 0xBF6EB3BF]`. -/
theorem seed_finite_iff (x : Nat) (hx : x < 2 ^ 32) :
    (isFinite (fastRcpNR0 x) = false ↔ 0x7EF311C3 ≤ x % 2 ^ 31 ∧ x % 2 ^ 31 ≤ 0x7F7311C2) ∧
    (isFinite (fastSqrtNR0 x) = false ↔ 0xBF85C416 ≤ x ∧ x ≤ 0xC085C415) ∧
    (isFinite (fastRcpSqrtNR0 x) = false ↔ 0xBE6EB3C0 ≤ x ∧ x ≤ 0xBF6EB3BF) := by
  rw [fastRcpNR0_bits x hx, fastSqrtNR0_bits x hx, fastRcpSqrtNR0_bits x hx]
  simp only [isFinite, expField, decide_eq_false_iff_not]
  norm_num at hx ⊢
  refine ⟨?_, ?_, ?_⟩
  · omega
  · split <;> omega
  · split <;> omega

theorem seed_finite_iff_witness :
    (0x3F800000 : Nat) < 2 ^ 32 ∧
    ((isFinite (fastRcpNR0 0x3F800000) = false ↔
        0x7EF311C3 ≤ 0x3F800000 % 2 ^ 31 ∧ 0x3F800000 % 2 ^ 31 ≤ 0x7F7311C2) ∧
    (isFinite (fastSqrtNR0 0x3F800000) = false ↔
        0xBF85C416 ≤ 0x3F800000 ∧ 0x3F800000 ≤ 0xC085C415) ∧
    (isFinite (fastRcpSqrtNR0 0x3F800000) = false ↔
        0xBE6EB3C0 ≤ 0x3F800000 ∧ 0x3F800000 ≤ 0xBF6EB3BF)) :=
  ⟨by decide, seed_finite_iff 0x3F800000 (by decide)⟩

/-! ## Seed constants per tier -/

/-- C17, as stated, fails: tiers 1 and 2 of the reciprocal square root use the same
seed constant `0x5F375A86`. -/
theorem rcpSqrt_seed_constants_not_distinct :
    IEEE_INT_RCP_SQRT_CONST_NR1 = IEEE_INT_RCP_SQRT_CONST_NR2 ∧
    ∀ x : Nat,
      fastRcpSqrtNR1 x = rcpSqrtNewtonRaphson (fmul (lit 5 1) x)
        (rcpSqrtIEEEIntApproximation x 0x5F375A86) ∧
      fastRcpSqrtNR2 x = rcpSqrtNewtonRaphson (fmul (lit 5 1) x)
        (rcpSqrtNewtonRaphson (fmul (lit 5 1) x) (rcpSqrtIEEEIntApproximation x 0x5F375A86)) :=
  ⟨rfl, fun _ => ⟨rfl, rfl⟩⟩

/-- C17, amended: each tier reads its own named constant; the three reciprocal constants
are pairwise distinct; the tier-0 reciprocal-square-root constant `0x5f3759df` differs from
those of tiers 1 and 2, which are both `0x5F375A86`. -/
theorem seed_constants_per_tier :
    (∀ x : Nat,
      fastRcpSqrtNR0 x = rcpSqrtIEEEIntApproximation x IEEE_INT_RCP_SQRT_CONST_NR0 ∧
      fastRcpSqrtNR1 x = rcpSqrtNewtonRaphson (fmul (lit 5 1) x)
        (rcpSqrtIEEEIntApproximation x IEEE_INT_RCP_SQRT_CONST_NR1) ∧
      fastRcpSqrtNR2 x = rcpSqrtNewtonRaphson (fmul (lit 5 1) x)
        (rcpSqrtNewtonRaphson (fmul (lit 5 1) x)
          (rcpSqrtIEEEIntApproximation x IEEE_INT_RCP_SQRT_CONST_NR2)) ∧
      fastRcpNR0 x = rcpIEEEIntApproximation x IEEE_INT_RCP_CONST_NR0 ∧
      fastRcpNR1 x = rcpNewtonRaphson x (rcpIEEEIntApproximation x IEEE_INT_RCP_CONST_NR1) ∧
      fastRcpNR2 x = rcpNewtonRaphson x
        (rcpNewtonRaphson x (rcpIEEEIntApproximation x IEEE_INT_RCP_CONST_NR2))) ∧
    IEEE_INT_RCP_CONST_NR0 ≠ IEEE_INT_RCP_CONST_NR1 ∧
    IEEE_INT_RCP_CONST_NR0 ≠ IEEE_INT_RCP_CONST_NR2 ∧
    IEEE_INT_RCP_CONST_NR1 ≠ IEEE_INT_RCP_CONST_NR2 ∧
    IEEE_INT_RCP_SQRT_CONST_NR0 ≠ IEEE_INT_RCP_SQRT_CONST_NR1 ∧
    IEEE_INT_RCP_SQRT_CONST_NR0 ≠ IEEE_INT_RCP_SQRT_CONST_NR2 ∧
    IEEE_INT_RCP_SQRT_CONST_NR1 = 0x5F375A86 ∧ IEEE_INT_RCP_SQRT_CONST_NR2 = 0x5F375A86 :=
  ⟨fun _ => ⟨rfl, rfl, rfl, rfl, rfl, rfl⟩, by decide, by decide, by decide, by decide,
    by decide, rfl, rfl⟩

/-! ## Integer range of the seeds on positive normal floats -/

/-- C18: for a positive, finite, normal input the integers `0x5f3759df - (bits >> 1)` and
`0x1FBD1DF5 + (bits >> 1)` stay inside the signed 32-bit range, and both seeds are again
positive, finite, normal patterns. -/
theorem seeds_stay_normal (x : Nat) (hx : isPosNormal x = true) :
    asint x = (x : Int) ∧
    -(2 : Int) ^ 31 ≤ IEEE_INT_RCP_SQRT_CONST_NR0 - (asint x >>> 1) ∧
    IEEE_INT_RCP_SQRT_CONST_NR0 - (asint x >>> 1) < (2 : Int) ^ 31 ∧
    -(2 : Int) ^ 31 ≤ IEEE_INT_SQRT_CONST_NR0 + (asint x >>> 1) ∧
    IEEE_INT_SQRT_CONST_NR0 + (asint x >>> 1) < (2 : Int) ^ 31 ∧
    (fastRcpSqrtNR0 x : Int) = IEEE_INT_RCP_SQRT_CONST_NR0 - (asint x >>> 1) ∧
    (fastSqrtNR0 x : Int) = IEEE_INT_SQRT_CONST_NR0 + (asint x >>> 1) ∧
    isPosNormal (fastRcpSqrtNR0 x) = true ∧ isPosNormal (fastSqrtNR0 x) = true := by
  simp only [isPosNormal, decide_eq_true_eq] at hx
  have hx32 : x < 2 ^ 32 := by
    norm_num at hx ⊢
    omega
  rw [fastRcpSqrtNR0_bits x hx32, fastSqrtNR0_bits x hx32, shiftRight_one_eq]
  simp only [isPosNormal, decide_eq_true_eq]
  unfold asint wrap32 IEEE_INT_RCP_SQRT_CONST_NR0 IEEE_INT_SQRT_CONST_NR0
  norm_num at hx ⊢
  have h31 : x < 2147483648 := by omega
  simp only [h31, if_true]
  omega

theorem seeds_stay_normal_witness :
    isPosNormal 0x3F800000 = true ∧
    (asint 0x3F800000 = ((0x3F800000 : Nat) : Int) ∧
    -(2 : Int) ^ 31 ≤ IEEE_INT_RCP_SQRT_CONST_NR0 - (asint 0x3F800000 >>> 1) ∧
    IEEE_INT_RCP_SQRT_CONST_NR0 - (asint 0x3F800000 >>> 1) < (2 : Int) ^ 31 ∧
    -(2 : Int) ^ 31 ≤ IEEE_INT_SQRT_CONST_NR0 + (asint 0x3F800000 >>> 1) ∧
    IEEE_INT_SQRT_CONST_NR0 + (asint 0x3F800000 >>> 1) < (2 : Int) ^ 31 ∧
    (fastRcpSqrtNR0 0x3F800000 : Int) = IEEE_INT_RCP_SQRT_CONST_NR0 - (asint 0x3F800000 >>> 1) ∧
    (fastSqrtNR0 0x3F800000 : Int) = IEEE_INT_SQRT_CONST_NR0 + (asint 0x3F800000 >>> 1) ∧
    isPosNormal (fastRcpSqrtNR0 0x3F800000) = true ∧
    isPosNormal (fastSqrtNR0 0x3F800000) = true) :=
  ⟨by decide, seeds_stay_normal 0x3F800000 (by decide)⟩

/-- C19: for a positive, finite, normal input, `fastRcpNR0` is again positive, finite and
normal exactly when `bits <= 0x7E7311C2 = 0x7EF311C2 - 0x00800000`; above that the integer
`0x7EF311C2 - bits` is either a zero or subnormal pattern, or negative, and then the
result has its sign bit set. -/
theorem fastRcpNR0_normal_iff (x : Nat) (hx : isPosNormal x = true) :
    (0x7E7311C2 : Nat) = 0x7EF311C2 - 0x00800000 ∧
    (isPosNormal (fastRcpNR0 x) = true ↔ x ≤ 0x7E7311C2) ∧
    (0x7E7311C2 < x →
      (0 ≤ IEEE_INT_RCP_CONST_NR0 - asint x ∧
        (fastRcpNR0 x : Int) = IEEE_INT_RCP_CONST_NR0 - asint x ∧
        fastRcpNR0 x ≤ 0x007FFFFF) ∨
      (IEEE_INT_RCP_CONST_NR0 - asint x < 0 ∧ isNeg (fastRcpNR0 x) = true)) := by
  simp only [isPosNormal, decide_eq_true_eq] at hx
  have hx32 : x < 2 ^ 32 := by
    norm_num at hx ⊢
    omega
  rw [fastRcpNR0_bits x hx32]
  simp only [isPosNormal, isNeg, decide_eq_true_eq]
  unfold asint wrap32 IEEE_INT_RCP_CONST_NR0
  norm_num at hx ⊢
  omega

theorem fastRcpNR0_normal_iff_witness :
    isPosNormal 0x7F000000 = true ∧
    ((0x7E7311C2 : Nat) = 0x7EF311C2 - 0x00800000 ∧
    (isPosNormal (fastRcpNR0 0x7F000000) = true ↔ 0x7F000000 ≤ 0x7E7311C2) ∧
    (0x7E7311C2 < 0x7F000000 →
      (0 ≤ IEEE_INT_RCP_CONST_NR0 - asint 0x7F000000 ∧
        (fastRcpNR0 0x7F000000 : Int) = IEEE_INT_RCP_CONST_NR0 - asint 0x7F000000 ∧
        fastRcpNR0 0x7F000000 ≤ 0x007FFFFF) ∨
      (IEEE_INT_RCP_CONST_NR0 - asint 0x7F000000 < 0 ∧
        isNeg (fastRcpNR0 0x7F000000) = true))) :=
  ⟨by decide, fastRcpNR0_normal_iff 0x7F000000 (by decide)⟩

/-! ## Order of positive floats and of their bit patterns -/

theorem mag_lt_two_pow (p : Nat) : mag p < 2 ^ 23 * 2 ^ expField p := by
  unfold mag
  have hm : manField p < 2 ^ 23 := Nat.mod_lt _ (by norm_num)
  split
  · rename_i h0
    rw [h0]
    simpa using hm
  · rename_i h0
    have e : 2 ^ 23 * 2 ^ expField p = 2 ^ 24 * 2 ^ (expField p - 1) := by
      have h1 : expField p = (expField p - 1) + 1 := by omega
      nth_rewrite 1 [h1]
      rw [pow_succ]
      ring
    rw [e]
    apply Nat.mul_lt_mul_of_pos_right _ (by positivity)
    omega

theorem two_pow_le_mag (q : Nat) (h : expField q ≠ 0) : 2 ^ 23 * 2 ^ (expField q - 1) ≤ mag q := by
  unfold mag
  rw [if_neg h]
  exact Nat.mul_le_mul_right _ (Nat.le_add_right _ _)

/-- On patterns with the sign bit clear the magnitude grows strictly with the pattern. -/
theorem mag_strictMono (p q : Nat) (hq : q < 2 ^ 31) (h : p < q) : mag p < mag q := by
  have hep : expField p = p / 2 ^ 23 := by
    unfold expField
    norm_num at hq ⊢
    omega
  have heq : expField q = q / 2 ^ 23 := by
    unfold expField
    norm_num at hq ⊢
    omega
  by_cases hlt : expField p < expField q
  · calc mag p < 2 ^ 23 * 2 ^ expField p := mag_lt_two_pow p
      _ ≤ 2 ^ 23 * 2 ^ (expField q - 1) :=
          Nat.mul_le_mul_left _ (Nat.pow_le_pow_right (by norm_num) (by omega))
      _ ≤ mag q := two_pow_le_mag q (by omega)
  · have hee : expField p = expField q := by
      rw [hep, heq] at hlt ⊢
      norm_num at hlt ⊢
      omega
    have hmm : manField p < manField q := by
      unfold manField
      rw [hep, heq] at hee
      norm_num at hee ⊢
      omega
    unfold mag
    rw [hee]
    split
    · exact hmm
    · apply Nat.mul_lt_mul_of_pos_right _ (by positivity)
      omega

theorem mag_mono (p q : Nat) (hq : q < 2 ^ 31) (h : p ≤ q) : mag p ≤ mag q := by
  rcases Nat.lt_or_eq_of_le h with h1 | h1
  · exact Nat.le_of_lt (mag_strictMono p q hq h1)
  · rw [h1]

theorem toRat_of_lt (p : Nat) (hp : p < 2 ^ 31) : toRat p = (mag p : ℚ) / 2 ^ 149 := by
  unfold toRat toInt
  have h : isNeg p = false := by
    simp only [isNeg, decide_eq_false_iff_not]
    norm_num at hp ⊢
    omega
  rw [h]
  simp

theorem toRat_le_iff (p q : Nat) (hp : p < 2 ^ 31) (hq : q < 2 ^ 31) :
    toRat p ≤ toRat q ↔ p ≤ q := by
  rw [toRat_of_lt p hp, toRat_of_lt q hq, div_le_div_iff_of_pos_right (by positivity), Nat.cast_le]
  constructor
  · intro h
    by_contra hcon
    have := mag_strictMono q p hp (by omega)
    omega
  · exact mag_mono p q hq

/-- C20: on positive, finite, normal floats the order of the values is the order of the
bit patterns, and `fastRcpSqrtNR0` reverses it: `x <= y` gives
`fastRcpSqrtNR0(y) <= fastRcpSqrtNR0(x)`, as patterns and as float values. -/
theorem fastRcpSqrtNR0_antitone (x y : Nat) (hx : isPosNormal x = true)
    (hy : isPosNormal y = true) (hxy : toRat x ≤ toRat y) :
    x ≤ y ∧ fastRcpSqrtNR0 y ≤ fastRcpSqrtNR0 x ∧
    toRat (fastRcpSqrtNR0 y) ≤ toRat (fastRcpSqrtNR0 x) := by
  simp only [isPosNormal, decide_eq_true_eq] at hx hy
  have hx31 : x < 2 ^ 31 := by
    norm_num at hx ⊢
    omega
  have hy31 : y < 2 ^ 31 := by
    norm_num at hy ⊢
    omega
  have hle : x ≤ y := (toRat_le_iff x y hx31 hy31).1 hxy
  have hbx := fastRcpSqrtNR0_bits x (by omega)
  have hby := fastRcpSqrtNR0_bits y (by omega)
  rw [if_pos hx31] at hbx
  rw [if_pos hy31] at hby
  have hfx : fastRcpSqrtNR0 x < 2 ^ 31 := by
    rw [hbx]
    norm_num
    omega
  have hfy : fastRcpSqrtNR0 y < 2 ^ 31 := by
    rw [hby]
    norm_num
    omega
  have hres : fastRcpSqrtNR0 y ≤ fastRcpSqrtNR0 x := by
    rw [hbx, hby]
    omega
  exact ⟨hle, hres, (toRat_le_iff _ _ hfy hfx).2 hres⟩

theorem fastRcpSqrtNR0_antitone_witness :
    isPosNormal 0x3F800000 = true ∧ isPosNormal 0x40800000 = true ∧
    toRat 0x3F800000 ≤ toRat 0x40800000 ∧
    (0x3F800000 ≤ 0x40800000 ∧ fastRcpSqrtNR0 0x40800000 ≤ fastRcpSqrtNR0 0x3F800000 ∧
    toRat (fastRcpSqrtNR0 0x40800000) ≤ toRat (fastRcpSqrtNR0 0x3F800000)) := by
  have h : toRat 0x3F800000 ≤ toRat 0x40800000 :=
    (toRat_le_iff _ _ (by decide) (by decide)).2 (by decide)
  exact ⟨by decide, by decide, h, fastRcpSqrtNR0_antitone 0x3F800000 0x40800000
    (by decide) (by decide) h⟩

/-! ## The reciprocal-square-root seed as a function of the fraction bits -/

theorem mag_posNormal (x : Nat) (h1 : 0x00800000 ≤ x) (h2 : x ≤ 0x7F7FFFFF) :
    mag x = (2 ^ 23 + x % 2 ^ 23) * 2 ^ (x / 2 ^ 23 - 1) := by
  unfold mag expField manField
  have e1 : x / 2 ^ 23 % 256 = x / 2 ^ 23 := by
    norm_num at h1 h2 ⊢
    omega
  have e2 : x / 2 ^ 23 ≠ 0 := by
    norm_num at h1 h2 ⊢
    omega
  rw [e1, if_neg e2]

theorem rcpSqrt_seed_shape (c x : Nat) (hc : c < 2 ^ 22) (h1 : 0x00800000 ≤ x)
    (h2 : x ≤ 0x7F7FFFFF) :
    0x00800000 ≤ 190 * 2 ^ 23 + c - x / 2 ∧ 190 * 2 ^ 23 + c - x / 2 ≤ 0x7F7FFFFF ∧
    ∃ t r e : Nat,
      mag (190 * 2 ^ 23 + c - x / 2) ^ 2 * mag x = t ^ 2 * r * 2 ^ e ∧
      ((e = 376 ∧ 2 ^ 23 + c < t ∧ t ≤ 2 ^ 23 + 2 ^ 22 + c ∧
          (r + 2 * t = 2 ^ 25 + 2 * c ∨ r + 2 * t = 2 ^ 25 + 2 * c + 1)) ∨
        (e = 377 ∧ 2 ^ 23 ≤ t ∧ t ≤ 2 ^ 23 + c ∧
          (r + 2 * t = 3 * 2 ^ 23 + 2 * c ∨ r + 2 * t = 3 * 2 ^ 23 + 2 * c + 1)) ∨
        (e = 375 ∧ 2 ^ 24 + c - 2 ^ 22 < t ∧ t < 2 ^ 24 ∧
          (r + 2 * t = 2 ^ 23 + 2 ^ 25 + 2 * c ∨ r + 2 * t = 2 ^ 23 + 2 ^ 25 + 2 * c + 1))) := by
  have hy1 : 0x00800000 ≤ 190 * 2 ^ 23 + c - x / 2 := by
    norm_num at hc h1 h2 ⊢
    omega
  have hy2 : 190 * 2 ^ 23 + c - x / 2 ≤ 0x7F7FFFFF := by
    norm_num at hc h1 h2 ⊢
    omega
  refine ⟨hy1, hy2, ?_⟩
  rw [mag_posNormal x h1 h2, mag_posNormal _ hy1 hy2]
  -- exponent and fraction of the input
  obtain ⟨a, ha⟩ : ∃ a, x / 2 ^ 23 = 2 * a ∨ x / 2 ^ 23 = 2 * a + 1 :=
    ⟨x / 2 ^ 23 / 2, by omega⟩
  have hM : x % 2 ^ 23 < 2 ^ 23 := Nat.mod_lt _ (by norm_num)
  norm_num at hc h1 h2 hy1 hy2 ha hM ⊢
  rcases ha with ha | ha
  · -- even exponent
    by_cases hh : x % 8388608 / 2 ≤ c
    · refine ⟨8388608 + c - x % 8388608 / 2, 8388608 + x % 8388608, 377, ?_, Or.inr (Or.inl ?_)⟩
      · have e1 : (1593835520 + c - x / 2) / 8388608 = 190 - a := by omega
        have e2 : (1593835520 + c - x / 2) % 8388608 = c - x % 8388608 / 2 := by omega
        have e3 : 8388608 + (c - x % 8388608 / 2) = 8388608 + c - x % 8388608 / 2 := by omega
        rw [e1, e2, e3, ha]
        have e4 : 2 ^ 377 = (2 ^ (190 - a - 1)) ^ 2 * 2 ^ (2 * a - 1) := by
          rw [← pow_mul, ← pow_add]
          congr 1
          omega
        rw [e4]
        ring
      · omega
    · refine ⟨16777216 + c - x % 8388608 / 2, 8388608 + x % 8388608, 375, ?_, Or.inr (Or.inr ?_)⟩
      · have e1 : (1593835520 + c - x / 2) / 8388608 = 189 - a := by omega
        have e2 : (1593835520 + c - x / 2) % 8388608 = 8388608 + c - x % 8388608 / 2 := by omega
        have e3 : 8388608 + (8388608 + c - x % 8388608 / 2) = 16777216 + c - x % 8388608 / 2 := by
          omega
        rw [e1, e2, e3, ha]
        have e4 : 2 ^ 375 = (2 ^ (189 - a - 1)) ^ 2 * 2 ^ (2 * a - 1) := by
          rw [← pow_mul, ← pow_add]
          congr 1
          omega
        rw [e4]
        ring
      · omega
  · -- odd exponent
    refine ⟨12582912 + c - x % 8388608 / 2, 8388608 + x % 8388608, 376, ?_, Or.inl ?_⟩
    · have e1 : (1593835520 + c - x / 2) / 8388608 = 189 - a := by omega
      have e2 : (1593835520 + c - x / 2) % 8388608 = 4194304 + c - x % 8388608 / 2 := by omega
      have e3 : 8388608 + (4194304 + c - x % 8388608 / 2) = 12582912 + c - x % 8388608 / 2 := by
        omega
      rw [e1, e2, e3, ha]
      have e4 : 2 ^ 376 = (2 ^ (189 - a - 1)) ^ 2 * 2 ^ (2 * a + 1 - 1) := by
        rw [← pow_mul, ← pow_add]
        congr 1
        omega
      rw [e4]
      ring
    · omega
theorem cubic_upper (t r G : ℚ) (ht : 0 ≤ t) (hr : 0 ≤ r) (hG : r + 2 * t = G) :
    27 * (t ^ 2 * r) ≤ G ^ 3 := by
  have hr' : r = G - 2 * t := by linarith
  subst hr'
  have h1 : 0 ≤ G + 6 * t := by linarith
  nlinarith [mul_nonneg (sq_nonneg (G - 3 * t)) h1]

theorem cubic_lower (t r G t1 t2 L : ℚ) (h1 : t1 ≤ t) (h2 : t ≤ t2) (hG : r + 2 * t = G)
    (hlt : t1 < t2) (h3 : G / 2 ≤ 2 * t1 + t2)
    (hL1 : L ≤ t1 ^ 2 * (G - 2 * t1)) (hL2 : L ≤ t2 ^ 2 * (G - 2 * t2)) :
    L ≤ t ^ 2 * r := by
  have hr' : r = G - 2 * t := by linarith
  subst hr'
  have a1 : 0 ≤ t - t1 := by linarith
  have a2 : 0 ≤ t2 - t := by linarith
  have a3 : 0 ≤ t - (G / 2 - t1 - t2) := by linarith
  have a4 : 0 ≤ t1 ^ 2 * (G - 2 * t1) - L := by linarith
  have a5 : 0 ≤ t2 ^ 2 * (G - 2 * t2) - L := by linarith
  have key : (t2 - t1) * (t ^ 2 * (G - 2 * t) - L) =
      2 * (t2 - t1) * ((t - t1) * (t2 - t) * (t - (G / 2 - t1 - t2)))
        + (t1 ^ 2 * (G - 2 * t1) - L) * (t2 - t) + (t2 ^ 2 * (G - 2 * t2) - L) * (t - t1) := by
    ring
  have hpos : 0 ≤ (t2 - t1) * (t ^ 2 * (G - 2 * t) - L) := by
    rw [key]
    have b1 : 0 ≤ (t - t1) * (t2 - t) * (t - (G / 2 - t1 - t2)) :=
      mul_nonneg (mul_nonneg a1 a2) a3
    have b2 : 0 ≤ 2 * (t2 - t1) := by linarith
    have b3 := mul_nonneg b2 b1
    have b4 := mul_nonneg a4 a2
    have b5 := mul_nonneg a5 a1
    linarith
  have hd : 0 < t2 - t1 := by linarith
  have := nonneg_of_mul_nonneg_right hpos hd
  linarith

theorem u_frac (a b : ℚ) : (a / 2 ^ 149) ^ 2 * (b / 2 ^ 149) = a ^ 2 * b / 2 ^ 447 := by
  have h : (2 : ℚ) ^ 447 = (2 ^ 149) ^ 2 * 2 ^ 149 := by
    rw [← pow_mul, ← pow_add]
  rw [h, div_pow, div_mul_div_comm]

theorem div_two_pow_split (T : ℚ) (e s : ℕ) (h : e + s = 447) :
    T * 2 ^ e / 2 ^ 447 = T / 2 ^ s := by
  have hp : (2 : ℚ) ^ e ≠ 0 := by positivity
  rw [← h, pow_add, mul_comm ((2 : ℚ) ^ e) (2 ^ s), mul_div_mul_right _ _ hp]

theorem seed_piece_lower (t r : ℕ) (G t1 t2 lo : ℚ) (s : ℕ) (h1 : t1 ≤ t) (h2 : (t : ℚ) ≤ t2)
    (hG : (r : ℚ) + 2 * t = G ∨ (r : ℚ) + 2 * t = G + 1) (hlt : t1 < t2) (ht1 : 0 ≤ t1)
    (h3 : (G + 1) / 2 ≤ 2 * t1 + t2)
    (hL1 : lo * 2 ^ s ≤ t1 ^ 2 * (G - 2 * t1)) (hL2 : lo * 2 ^ s ≤ t2 ^ 2 * (G - 2 * t2)) :
    lo ≤ (t : ℚ) ^ 2 * r / 2 ^ s := by
  rw [le_div_iff₀ (by positivity)]
  have ht2 : 0 ≤ t2 := by linarith
  rcases hG with hG | hG
  · exact cubic_lower t r G t1 t2 _ h1 h2 hG hlt (by linarith) hL1 hL2
  · refine cubic_lower t r (G + 1) t1 t2 _ h1 h2 hG hlt h3 ?_ ?_
    · have : t1 ^ 2 * (G - 2 * t1) ≤ t1 ^ 2 * (G + 1 - 2 * t1) :=
        mul_le_mul_of_nonneg_left (by linarith) (by positivity)
      linarith
    · have : t2 ^ 2 * (G - 2 * t2) ≤ t2 ^ 2 * (G + 1 - 2 * t2) :=
        mul_le_mul_of_nonneg_left (by linarith) (by positivity)
      linarith

theorem seed_piece_upper (t r : ℕ) (G hi : ℚ) (s : ℕ)
    (hG : (r : ℚ) + 2 * t = G ∨ (r : ℚ) + 2 * t = G + 1) (hG0 : 0 ≤ G)
    (hU : (G + 1) ^ 3 ≤ 27 * (hi * 2 ^ s)) :
    (t : ℚ) ^ 2 * r / 2 ^ s ≤ hi := by
  rw [div_le_iff₀ (by positivity)]
  have ht : (0 : ℚ) ≤ t := Nat.cast_nonneg t
  have hr : (0 : ℚ) ≤ r := Nat.cast_nonneg r
  have hmono : ∀ g : ℚ, 0 ≤ g → g ≤ G + 1 → g ^ 3 ≤ (G + 1) ^ 3 := fun g h0 h =>
    pow_le_pow_left₀ h0 h 3
  rcases hG with hG | hG
  · have := cubic_upper t r G ht hr hG
    have := hmono G hG0 (by linarith)
    linarith
  · have := cubic_upper t r (G + 1) ht hr hG
    linarith

theorem toRat_posNormal (x : Nat) (h1 : 0x00800000 ≤ x) (h2 : x ≤ 0x7F7FFFFF) :
    toRat x = (mag x : ℚ) / 2 ^ 149 ∧ 0 < toRat x := by
  have hx : x < 2 ^ 31 := by
    norm_num at h2 ⊢
    omega
  have e := toRat_of_lt x hx
  refine ⟨e, ?_⟩
  rw [e]
  have hm : 0 < mag x := by
    rw [mag_posNormal x h1 h2]
    positivity
  positivity

/-- Bounds for `y ^ 2 * x` where `y` is the seed `C - (bits x >> 1)` with
`C = 190 * 2 ^ 23 + c`: three polynomial pieces, each bounded below from its end points
and above by the arithmetic-geometric mean inequality. -/
theorem rcpSqrt_seed_bounds (c x : Nat) (lo hi : ℚ) (hc0 : 0 < c) (hc : c < 2 ^ 22)
    (h1 : 0x00800000 ≤ x) (h2 : x ≤ 0x7F7FFFFF)
    (a1 : lo * 2 ^ 71 ≤ (2 ^ 23 + c) ^ 2 * (2 ^ 25 + 2 * c - 2 * (2 ^ 23 + c)))
    (a2 : lo * 2 ^ 71 ≤ (2 ^ 23 + 2 ^ 22 + c) ^ 2 * (2 ^ 25 + 2 * c - 2 * (2 ^ 23 + 2 ^ 22 + c)))
    (a3 : (2 ^ 25 + 2 * c + 1 : ℚ) ^ 3 ≤ 27 * (hi * 2 ^ 71))
    (b1 : lo * 2 ^ 70 ≤ (2 ^ 23) ^ 2 * (3 * 2 ^ 23 + 2 * c - 2 * 2 ^ 23))
    (b2 : lo * 2 ^ 70 ≤ (2 ^ 23 + c) ^ 2 * (3 * 2 ^ 23 + 2 * c - 2 * (2 ^ 23 + c)))
    (b3 : (3 * 2 ^ 23 + 2 * c + 1 : ℚ) ^ 3 ≤ 27 * (hi * 2 ^ 70))
    (c1 : lo * 2 ^ 72 ≤ (3 * 2 ^ 22 + c) ^ 2 * (2 ^ 23 + 2 ^ 25 + 2 * c - 2 * (3 * 2 ^ 22 + c)))
    (c2 : lo * 2 ^ 72 ≤ (2 ^ 24) ^ 2 * (2 ^ 23 + 2 ^ 25 + 2 * c - 2 * 2 ^ 24))
    (c3 : (2 ^ 23 + 2 ^ 25 + 2 * c + 1 : ℚ) ^ 3 ≤ 27 * (hi * 2 ^ 72)) :
    lo ≤ toRat (190 * 2 ^ 23 + c - x / 2) ^ 2 * toRat x ∧
    toRat (190 * 2 ^ 23 + c - x / 2) ^ 2 * toRat x ≤ hi ∧
    0 < toRat (190 * 2 ^ 23 + c - x / 2) ∧ 0 < toRat x := by
  obtain ⟨hy1, hy2, t, r, e, hmag, hcase⟩ := rcpSqrt_seed_shape c x hc h1 h2
  obtain ⟨hX, hXpos⟩ := toRat_posNormal x h1 h2
  obtain ⟨hY, hYpos⟩ := toRat_posNormal _ hy1 hy2
  have hq : ((mag (190 * 2 ^ 23 + c - x / 2) : ℚ)) ^ 2 * (mag x : ℚ)
      = (t : ℚ) ^ 2 * r * 2 ^ e := by
    have := congrArg (fun n : ℕ => (n : ℚ)) hmag
    simp only [Nat.cast_mul, Nat.cast_pow, Nat.cast_ofNat] at this
    exact this
  have hu : toRat (190 * 2 ^ 23 + c - x / 2) ^ 2 * toRat x
      = ((t : ℚ) ^ 2 * r * 2 ^ e) / 2 ^ 447 := by
    rw [hX, hY, u_frac, hq]
  have hcq : (c : ℚ) < 2 ^ 22 := by exact_mod_cast hc
  have hc0q : (0 : ℚ) < c := by exact_mod_cast hc0
  rw [hu]
  refine ⟨?_, ?_, hYpos, hXpos⟩
  · rcases hcase with ⟨rfl, ht1, ht2, hG⟩ | ⟨rfl, ht1, ht2, hG⟩ | ⟨rfl, ht1, ht2, hG⟩
    · rw [div_two_pow_split _ 376 71 (by norm_num)]
      refine seed_piece_lower t r (2 ^ 25 + 2 * c) (2 ^ 23 + c) (2 ^ 23 + 2 ^ 22 + c) lo 71
        (by exact_mod_cast Nat.le_of_lt ht1) (by exact_mod_cast ht2)
        (by rcases hG with h | h
            · left; exact_mod_cast h
            · right; exact_mod_cast h)
        (by linarith) (by positivity) (by linarith) a1 a2
    · rw [div_two_pow_split _ 377 70 (by norm_num)]
      refine seed_piece_lower t r (3 * 2 ^ 23 + 2 * c) (2 ^ 23) (2 ^ 23 + c) lo 70
        (by exact_mod_cast ht1) (by exact_mod_cast ht2)
        (by rcases hG with h | h
            · left; exact_mod_cast h
            · right; exact_mod_cast h)
        (by linarith) (by positivity) (by linarith) b1 b2
    · rw [div_two_pow_split _ 375 72 (by norm_num)]
      have ht1' : 3 * 2 ^ 22 + c ≤ t := by
        norm_num at ht1 ⊢
        omega
      refine seed_piece_lower t r (2 ^ 23 + 2 ^ 25 + 2 * c) (3 * 2 ^ 22 + c) (2 ^ 24) lo 72
        (by exact_mod_cast ht1') (by exact_mod_cast Nat.le_of_lt ht2)
        (by rcases hG with h | h
            · left; exact_mod_cast h
            · right; exact_mod_cast h)
        (by linarith) (by positivity) (by linarith) c1 c2
  · rcases hcase with ⟨rfl, -, -, hG⟩ | ⟨rfl, -, -, hG⟩ | ⟨rfl, -, -, hG⟩
    · rw [div_two_pow_split _ 376 71 (by norm_num)]
      exact seed_piece_upper t r (2 ^ 25 + 2 * c) hi 71
        (by rcases hG with h | h
            · left; exact_mod_cast h
            · right; exact_mod_cast h)
        (by positivity) a3
    · rw [div_two_pow_split _ 377 70 (by norm_num)]
      exact seed_piece_upper t r (3 * 2 ^ 23 + 2 * c) hi 70
        (by rcases hG with h | h
            · left; exact_mod_cast h
            · right; exact_mod_cast h)
        (by positivity) b3
    · rw [div_two_pow_split _ 375 72 (by norm_num)]
      exact seed_piece_upper t r (2 ^ 23 + 2 ^ 25 + 2 * c) hi 72
        (by rcases hG with h | h
            · left; exact_mod_cast h
            · right; exact_mod_cast h)
        (by positivity) c3

/-! ## Relative error of the reciprocal-square-root seed -/

theorem relErr_eq (Y s : ℝ) (hs : 0 < s) : |Y - 1 / s| / (1 / s) = |Y * s - 1| := by
  have hne : s ≠ 0 := ne_of_gt hs
  rw [div_div_eq_mul_div, div_one, ← abs_of_pos hs, ← abs_mul, abs_of_pos hs]
  congr 1
  field_simp

/-- From two-sided bounds on `y ^ 2 * x` to the relative error of `y` against
`1 / sqrt x`. -/
theorem relErr_of_sq_bounds (X Y δ : ℝ) (hX : 0 < X) (hY : 0 < Y) (hδ0 : 0 ≤ δ) (hδ1 : δ ≤ 1)
    (hlo : (1 - δ) ^ 2 ≤ Y ^ 2 * X) (hhi : Y ^ 2 * X ≤ (1 + δ) ^ 2) :
    |Y - 1 / Real.sqrt X| / (1 / Real.sqrt X) ≤ δ := by
  obtain ⟨s, hs, rfl⟩ : ∃ s : ℝ, 0 < s ∧ X = s ^ 2 :=
    ⟨Real.sqrt X, Real.sqrt_pos.2 hX, (Real.sq_sqrt (le_of_lt hX)).symm⟩
  rw [Real.sqrt_sq (le_of_lt hs)]
  have hYs : 0 < Y * s := mul_pos hY hs
  have h1 : Y * s ≤ 1 + δ := by
    by_contra hcon
    push_neg at hcon
    nlinarith
  have h2 : 1 - δ ≤ Y * s := by
    by_contra hcon
    push_neg at hcon
    nlinarith
  rw [relErr_eq Y s hs, abs_le]
  constructor <;> linarith

theorem fastRcpSqrtNR0_eq (x : Nat) (h1 : 0x00800000 ≤ x) (h2 : x ≤ 0x7F7FFFFF) :
    fastRcpSqrtNR0 x = 190 * 2 ^ 23 + 3627487 - x / 2 := by
  rw [fastRcpSqrtNR0_bits x (by norm_num at h2 ⊢; omega)]
  have : x < 2 ^ 31 := by
    norm_num at h2 ⊢
    omega
  rw [if_pos this]
  norm_num

set_option maxRecDepth 10000 in
/-- C12, amended: for every positive, finite, normal float `x` (in particular for
`x <= 1e6`) the relative error of `fastRcpSqrtNR0 x` against `1 / sqrt x` is at most
`3.44` percent. -/
theorem fastRcpSqrtNR0_error (x : Nat) (hx : isPosNormal x = true) :
    |((toRat (fastRcpSqrtNR0 x) : ℚ) : ℝ) - 1 / Real.sqrt ((toRat x : ℚ) : ℝ)|
      / (1 / Real.sqrt ((toRat x : ℚ) : ℝ)) ≤ 344 / 10000 := by
  simp only [isPosNormal, decide_eq_true_eq] at hx
  obtain ⟨h1, h2⟩ := hx
  obtain ⟨hlo, hhi, hY, hX⟩ := rcpSqrt_seed_bounds 3627487 x ((9656 / 10000) ^ 2)
    ((10344 / 10000) ^ 2) (by norm_num) (by norm_num) h1 h2
    (by norm_num) (by norm_num) (by norm_num) (by norm_num) (by norm_num) (by norm_num)
    (by norm_num) (by norm_num) (by norm_num)
  rw [fastRcpSqrtNR0_eq x h1 h2]
  apply relErr_of_sq_bounds _ _ _ (by exact_mod_cast hX) (by exact_mod_cast hY)
    (by norm_num) (by norm_num)
  · have : (((9656 / 10000 : ℚ) ^ 2 : ℚ) : ℝ)
        ≤ ((toRat (190 * 2 ^ 23 + 3627487 - x / 2) ^ 2 * toRat x : ℚ) : ℝ) :=
      Rat.cast_le.2 hlo
    push_cast at this
    norm_num at this ⊢
    linarith
  · have : ((toRat (190 * 2 ^ 23 + 3627487 - x / 2) ^ 2 * toRat x : ℚ) : ℝ)
        ≤ (((10344 / 10000 : ℚ) ^ 2 : ℚ) : ℝ) :=
      Rat.cast_le.2 hhi
    push_cast at this
    norm_num at this ⊢
    linarith

/-- C12, as stated, fails: at `x = 0x406EB3BE` (about `3.7297`) the seed is
`0x5f3759df - 0x203759DF = 0x3F000000 = 0.5`, whose relative error against
`1 / sqrt x` (about `0.51780`) is about `3.4376` percent, above `3.4` percent. -/
theorem fastRcpSqrtNR0_above_34 :
    isPosNormal 0x406EB3BE = true ∧ toRat 0x406EB3BE ≤ 1000000 ∧
    fastRcpSqrtNR0 0x406EB3BE = 0x3F000000 ∧
    (34 : ℝ) / 1000 <
      |((toRat (fastRcpSqrtNR0 0x406EB3BE) : ℚ) : ℝ) - 1 / Real.sqrt ((toRat 0x406EB3BE : ℚ) : ℝ)|
        / (1 / Real.sqrt ((toRat 0x406EB3BE : ℚ) : ℝ)) := by
  have e : fastRcpSqrtNR0 0x406EB3BE = 0x3F000000 := by decide!
  have hx : toRat 0x406EB3BE = 7821791 / 2097152 := by
    rw [toRat_of_toInt _ (15643582 * 2 ^ 127) (by decide!)]
    norm_num
  have hy : toRat 0x3F000000 = 1 / 2 := by
    rw [toRat_of_toInt _ (2 ^ 148) (by decide!)]
    norm_num
  refine ⟨by decide, by rw [hx]; norm_num, e, ?_⟩
  rw [e, hx, hy]
  push_cast
  have hs0 : (0 : ℝ) < Real.sqrt (7821791 / 2097152) := Real.sqrt_pos.2 (by norm_num)
  have hs1 : Real.sqrt (7821791 / 2097152) < 1932 / 1000 := by
    rw [Real.sqrt_lt' (by norm_num)]
    norm_num
  rw [relErr_eq _ _ hs0, lt_abs]
  right
  linarith

theorem fastRcpSqrtNR0_error_witness :
    isPosNormal 0x3F800000 = true ∧
    |((toRat (fastRcpSqrtNR0 0x3F800000) : ℚ) : ℝ) - 1 / Real.sqrt ((toRat 0x3F800000 : ℚ) : ℝ)|
      / (1 / Real.sqrt ((toRat 0x3F800000 : ℚ) : ℝ)) ≤ 344 / 10000 :=
  ⟨by decide, fastRcpSqrtNR0_error 0x3F800000 (by decide)⟩

/-! ## Relative error of one float operation -/

/-- Relative rounding error: when the exact value is at least `2 ^ j` units (`j <= 23`), or
is an integer number of units, the rounded magnitude is within `2 ^ (-(j + 1))` of it,
relatively. -/
theorem roundMag_rel (N d j : Nat) (hd : 0 < d) (hj : j ≤ 23) (hlo : 2 ^ j * d ≤ N ∨ d = 1)
    (hhi : N < 2 ^ 127 * 2 ^ 149 * d) :
    roundMag N d < infBits ∧
      2 ^ (j + 1) * (mag (roundMag N d) * d) ≤ 2 ^ (j + 1) * N + N ∧
      2 ^ (j + 1) * N ≤ 2 ^ (j + 1) * (mag (roundMag N d) * d) + N := by
  obtain ⟨k, M0, M, hr, hkdef, hlo', hhi', hM0, hk, hM⟩ := roundMag_spec N d hd
  have hq : N / d < 2 ^ (127 + 149) := by
    rw [pow_add]
    exact Nat.div_lt_of_lt_mul (by rw [Nat.mul_comm]; exact hhi)
  have hkB : k ≤ 276 - 24 := by
    have := bitLen_le_of_lt _ _ hq
    omega
  have hMle : M ≤ 2 ^ 24 := by
    rcases hM with ⟨rfl, -⟩ | ⟨rfl, -⟩ <;> omega
  have hkM : k = 0 ∨ 2 ^ 23 ≤ M := by
    rcases hk with hk | hk
    · exact Or.inl hk
    · rcases hM with ⟨rfl, -⟩ | ⟨rfl, -⟩
      · exact Or.inr hk
      · exact Or.inr (by omega)
  have hfin : k * 2 ^ 23 + M < infBits := by
    simp only [infBits]
    norm_num at hMle ⊢
    omega
  rw [hr, if_pos hfin, mag_pack k M hMle hkM hfin]
  have e : M * 2 ^ k * d = M * (d * 2 ^ k) := by ring
  rw [e]
  -- twice the distance to the exact value is at most one quantum `D`
  -- and `2 ^ j` quanta fit below the exact value, unless the value is exact
  have hquant : 2 ^ j * (d * 2 ^ k) ≤ N ∨ (M = M0 ∧ N = M0 * (d * 2 ^ k)) := by
    rcases hk with hk0 | hk1
    · subst hk0
      rcases hlo with h | h
      · left
        simpa using h
      · right
        subst h
        simp only [pow_zero, Nat.mul_one] at hlo' hhi' hM ⊢
        have hN : N = M0 := by omega
        rcases hM with ⟨h1, -⟩ | ⟨-, h2⟩
        · exact ⟨h1, hN⟩
        · omega
    · left
      calc 2 ^ j * (d * 2 ^ k) ≤ 2 ^ 23 * (d * 2 ^ k) :=
            Nat.mul_le_mul_right _ (Nat.pow_le_pow_right (by norm_num) hj)
        _ ≤ M0 * (d * 2 ^ k) := Nat.mul_le_mul_right _ hk1
        _ ≤ N := hlo'
  refine ⟨hfin, ?_, ?_⟩
  · rcases hquant with hq1 | ⟨rfl, hq2⟩
    · rcases hM with ⟨rfl, h1⟩ | ⟨rfl, h1⟩
      · have := Nat.mul_le_mul_left (2 ^ (j + 1)) hlo'
        omega
      · -- rounded up: (M0 + 1) * D - N <= D / 2
        have h2 : 2 * ((M0 + 1) * (d * 2 ^ k)) ≤ 2 * N + d * 2 ^ k := by
          rw [Nat.add_mul, Nat.one_mul]
          omega
        have h3 := Nat.mul_le_mul_left (2 ^ j) h2
        have e1 : 2 ^ j * (2 * ((M0 + 1) * (d * 2 ^ k))) = 2 ^ (j + 1) * ((M0 + 1) * (d * 2 ^ k)) := by
          rw [pow_succ]
          ring
        have e2 : 2 ^ j * (2 * N + d * 2 ^ k) = 2 ^ (j + 1) * N + 2 ^ j * (d * 2 ^ k) := by
          rw [pow_succ]
          ring
        rw [e1, e2] at h3
        omega
    · rw [← hq2]
      omega
  · rcases hquant with hq1 | ⟨rfl, hq2⟩
    · rcases hM with ⟨rfl, h1⟩ | ⟨rfl, h1⟩
      · -- rounded down: N - M0 * D <= D / 2
        have h2 : 2 * N ≤ 2 * (M * (d * 2 ^ k)) + d * 2 ^ k := by omega
        have h3 := Nat.mul_le_mul_left (2 ^ j) h2
        have e1 : 2 ^ j * (2 * N) = 2 ^ (j + 1) * N := by
          rw [pow_succ]
          ring
        have e2 : 2 ^ j * (2 * (M * (d * 2 ^ k)) + d * 2 ^ k)
            = 2 ^ (j + 1) * (M * (d * 2 ^ k)) + 2 ^ j * (d * 2 ^ k) := by
          rw [pow_succ]
          ring
        rw [e1, e2] at h3
        omega
      · have h2 : N ≤ (M0 + 1) * (d * 2 ^ k) := Nat.le_of_lt hhi'
        have := Nat.mul_le_mul_left (2 ^ (j + 1)) h2
        omega
    · rw [← hq2]
      omega

/-- Sign of a pattern as a rational unit. -/
theorem toRat_eq_sign_mul (a : Nat) :
    toRat a = (if isNeg a then (-1 : ℚ) else 1) * ((mag a : ℚ) / 2 ^ 149) := by
  unfold toRat toInt
  cases isNeg a <;> simp
  ring

theorem abs_toRat (a : Nat) : |toRat a| = (mag a : ℚ) / 2 ^ 149 := by
  rw [toRat_eq_sign_mul, abs_mul]
  have h : |(if isNeg a then (-1 : ℚ) else 1)| = 1 := by
    cases isNeg a <;> simp
  rw [h, one_mul, abs_of_nonneg (by positivity)]

theorem toRat_withSign (s : Bool) (m : Nat) (hm : m ≤ infBits) :
    toRat (withSign s m) = (if s then (-1 : ℚ) else 1) * ((mag m : ℚ) / 2 ^ 149) := by
  rw [toRat_eq_sign_mul, isNeg_withSign s m hm, mag_withSign]

theorem toRat_fneg (a : Nat) : toRat (fneg a) = -toRat a := by
  unfold toRat
  rw [toInt_fneg]
  push_cast
  ring

theorem rel_core (R N w p : ℚ) (hw : 0 < w) (hp : 0 < p) (q1 : p * (R * w) ≤ p * N + N)
    (q2 : p * N ≤ p * (R * w) + N) : |R / w - N / (w * w)| ≤ N / (w * w) / p := by
  have hR : R / w - N / (w * w) = (R * w - N) / (w * w) := by
    field_simp
    ring
  have hN : N / (w * w) / p = N / p / (w * w) := by
    rw [div_div, div_div, mul_comm]
  rw [hR, hN, abs_div, abs_of_pos (mul_pos hw hw)]
  apply div_le_div_of_nonneg_right _ (le_of_lt (mul_pos hw hw))
  rw [abs_le]
  constructor
  · have h : N - R * w ≤ N / p := by
      rw [le_div_iff₀ hp]
      nlinarith
    linarith
  · rw [le_div_iff₀ hp]
    nlinarith

/-- One float multiplication in the normal range errs by at most `2 ^ (-24)` relatively
(`2 ^ (-(j + 1))` when the product is only known to be at least `2 ^ j` units). -/
theorem fmul_rel (a b j : Nat) (ha : isFinite a = true) (hb : isFinite b = true) (hj : j ≤ 23)
    (hlo : (2 : ℚ) ^ j / 2 ^ 149 ≤ |toRat a * toRat b|) (hhi : |toRat a * toRat b| < 2 ^ 127) :
    isFinite (fmul a b) = true ∧
      |toRat (fmul a b) - toRat a * toRat b| ≤ |toRat a * toRat b| / 2 ^ (j + 1) := by
  have habs : |toRat a * toRat b| = ((mag a : ℚ) * (mag b : ℚ)) / (2 ^ 149 * 2 ^ 149) := by
    rw [abs_mul, abs_toRat, abs_toRat, div_mul_div_comm]
  rw [habs] at hlo hhi ⊢
  have hw : (0 : ℚ) < 2 ^ 149 := by positivity
  have hN1 : 2 ^ j * 2 ^ 149 ≤ mag a * mag b := by
    have h : (2 : ℚ) ^ j * 2 ^ 149 ≤ (mag a : ℚ) * (mag b : ℚ) := by
      rw [div_le_div_iff₀ hw (mul_pos hw hw), ← mul_assoc] at hlo
      exact le_of_mul_le_mul_right hlo hw
    exact_mod_cast h
  have hN2 : mag a * mag b < 2 ^ 127 * 2 ^ 149 * 2 ^ 149 := by
    have h : (mag a : ℚ) * (mag b : ℚ) < 2 ^ 127 * 2 ^ 149 * 2 ^ 149 := by
      rw [div_lt_iff₀ (mul_pos hw hw), ← mul_assoc] at hhi
      exact hhi
    exact_mod_cast h
  obtain ⟨hfin, r1, r2⟩ := roundMag_rel (mag a * mag b) (2 ^ 149) j (by positivity) hj
    (Or.inl hN1) hN2
  have hf : fmul a b = withSign (xor (isNeg a) (isNeg b)) (roundMag (mag a * mag b) (2 ^ 149)) := by
    unfold fmul
    rw [isNaN_of_isFinite a ha, isNaN_of_isFinite b hb, isInf_of_isFinite a ha,
      isInf_of_isFinite b hb]
    simp
  rw [hf]
  refine ⟨isFinite_withSign _ _ hfin, ?_⟩
  rw [toRat_withSign _ _ (Nat.le_of_lt hfin), toRat_eq_sign_mul a, toRat_eq_sign_mul b]
  generalize mag (roundMag (mag a * mag b) (2 ^ 149)) = R at r1 r2 ⊢
  have q1 : (2 : ℚ) ^ (j + 1) * ((R : ℚ) * 2 ^ 149)
      ≤ 2 ^ (j + 1) * ((mag a : ℚ) * (mag b : ℚ)) + (mag a : ℚ) * (mag b : ℚ) := by
    exact_mod_cast r1
  have q2 : (2 : ℚ) ^ (j + 1) * ((mag a : ℚ) * (mag b : ℚ))
      ≤ 2 ^ (j + 1) * ((R : ℚ) * 2 ^ 149) + (mag a : ℚ) * (mag b : ℚ) := by
    exact_mod_cast r2
  have key := rel_core (R : ℚ) ((mag a : ℚ) * (mag b : ℚ)) (2 ^ 149) (2 ^ (j + 1)) hw
    (by positivity) q1 q2
  have e298 : ((mag a : ℚ) / 2 ^ 149) * ((mag b : ℚ) / 2 ^ 149)
      = (mag a : ℚ) * (mag b : ℚ) / (2 ^ 149 * 2 ^ 149) := div_mul_div_comm _ _ _ _
  cases isNeg a <;> cases isNeg b
  · simpa [e298] using key
  · simp only [Bool.false_eq_true, if_false, if_true, Bool.xor_true, Bool.not_false,
      Bool.false_bne]
    have e : -1 * ((R : ℚ) / 2 ^ 149) - 1 * ((mag a : ℚ) / 2 ^ 149) * (-1 * ((mag b : ℚ) / 2 ^ 149))
        = -((R : ℚ) / 2 ^ 149 - (mag a : ℚ) * (mag b : ℚ) / (2 ^ 149 * 2 ^ 149)) := by
      rw [← e298]
      ring
    rw [e, abs_neg]
    exact key
  · simp only [Bool.false_eq_true, if_false, if_true, Bool.xor_false, Bool.bne_false]
    have e : -1 * ((R : ℚ) / 2 ^ 149) - -1 * ((mag a : ℚ) / 2 ^ 149) * (1 * ((mag b : ℚ) / 2 ^ 149))
        = -((R : ℚ) / 2 ^ 149 - (mag a : ℚ) * (mag b : ℚ) / (2 ^ 149 * 2 ^ 149)) := by
      rw [← e298]
      ring
    rw [e, abs_neg]
    exact key
  · simp only [if_true, Bool.xor_self, Bool.false_eq_true, if_false, bne_self_eq_false]
    have e : 1 * ((R : ℚ) / 2 ^ 149) - -1 * ((mag a : ℚ) / 2 ^ 149) * (-1 * ((mag b : ℚ) / 2 ^ 149))
        = (R : ℚ) / 2 ^ 149 - (mag a : ℚ) * (mag b : ℚ) / (2 ^ 149 * 2 ^ 149) := by
      rw [← e298]
      ring
    rw [e]
    exact key

theorem toRat_add (a b : Nat) : toRat a + toRat b = ((toInt a + toInt b : Int) : ℚ) / 2 ^ 149 := by
  unfold toRat
  push_cast
  ring

/-- One float addition errs by at most `2 ^ (-24)` relatively, unless it overflows. -/
theorem fadd_rel (a b : Nat) (ha : isFinite a = true) (hb : isFinite b = true)
    (hhi : |toRat a + toRat b| < 2 ^ 127) :
    isFinite (fadd a b) = true ∧
      |toRat (fadd a b) - (toRat a + toRat b)| ≤ |toRat a + toRat b| / 2 ^ 24 := by
  rw [toRat_add] at hhi ⊢
  have hw : (0 : ℚ) < 2 ^ 149 := by positivity
  have hf : fadd a b = if toInt a + toInt b = 0 then withSign (isNeg a && isNeg b) 0
      else withSign (decide (toInt a + toInt b < 0)) (roundMag (toInt a + toInt b).natAbs 1) := by
    unfold fadd
    rw [isNaN_of_isFinite a ha, isNaN_of_isFinite b hb, isInf_of_isFinite a ha,
      isInf_of_isFinite b hb]
    simp
  rw [hf]
  generalize toInt a + toInt b = s at hhi ⊢
  have hm0 : mag 0 = 0 := by simp [mag, expField, manField]
  split
  · rename_i h0
    subst h0
    refine ⟨isFinite_withSign _ _ (by simp [infBits]), ?_⟩
    rw [toRat_withSign _ _ (by simp [infBits]), hm0]
    simp
  · rename_i h0
    have habs : |((s : Int) : ℚ) / 2 ^ 149| = ((s.natAbs : ℕ) : ℚ) / 2 ^ 149 := by
      rw [abs_div, abs_of_pos hw, Nat.cast_natAbs, Int.cast_abs]
    rw [habs] at hhi ⊢
    have hN2 : s.natAbs < 2 ^ 127 * 2 ^ 149 * 1 := by
      have h : ((s.natAbs : ℕ) : ℚ) < 2 ^ 127 * 2 ^ 149 * 1 := by
        rw [div_lt_iff₀ hw] at hhi
        linarith
      exact_mod_cast h
    obtain ⟨hfin, r1, r2⟩ := roundMag_rel s.natAbs 1 23 (by norm_num) (by norm_num)
      (Or.inr rfl) hN2
    refine ⟨isFinite_withSign _ _ hfin, ?_⟩
    rw [toRat_withSign _ _ (Nat.le_of_lt hfin)]
    generalize mag (roundMag s.natAbs 1) = R at r1 r2 ⊢
    have q1 : (2 : ℚ) ^ 24 * (R : ℚ) ≤ 2 ^ 24 * (s.natAbs : ℚ) + (s.natAbs : ℚ) := by
      have := r1
      simp only [Nat.mul_one] at this
      exact_mod_cast this
    have q2 : (2 : ℚ) ^ 24 * (s.natAbs : ℚ) ≤ 2 ^ 24 * (R : ℚ) + (s.natAbs : ℚ) := by
      have := r2
      simp only [Nat.mul_one] at this
      exact_mod_cast this
    have hp : (0 : ℚ) < 2 ^ 24 := by positivity
    have key : |(R : ℚ) / 2 ^ 149 - (s.natAbs : ℚ) / 2 ^ 149| ≤ (s.natAbs : ℚ) / 2 ^ 149 / 2 ^ 24 := by
      rw [← sub_div, abs_div, abs_of_pos hw, div_div, div_le_div_iff₀ hw (by positivity)]
      have h1 : |(R : ℚ) - (s.natAbs : ℚ)| * 2 ^ 24 ≤ (s.natAbs : ℚ) := by
        rw [← le_div_iff₀ hp, abs_le]
        constructor
        · have h : (s.natAbs : ℚ) - R ≤ (s.natAbs : ℚ) / 2 ^ 24 := by
            rw [le_div_iff₀ hp]
            nlinarith
          linarith
        · rw [le_div_iff₀ hp]
          nlinarith
      calc |(R : ℚ) - (s.natAbs : ℚ)| * (2 ^ 149 * 2 ^ 24)
          = |(R : ℚ) - (s.natAbs : ℚ)| * 2 ^ 24 * 2 ^ 149 := by ring
        _ ≤ (s.natAbs : ℚ) * 2 ^ 149 := mul_le_mul_of_nonneg_right h1 (le_of_lt hw)
    by_cases hs : s < 0
    · have hsq : ((s : Int) : ℚ) = -((s.natAbs : ℕ) : ℚ) := by
        rw [Nat.cast_natAbs, Int.cast_abs, abs_of_neg (by exact_mod_cast hs)]
        ring
      simp only [hs, decide_True, if_true]
      rw [hsq]
      have e : -1 * ((R : ℚ) / 2 ^ 149) - -((s.natAbs : ℕ) : ℚ) / 2 ^ 149
          = -((R : ℚ) / 2 ^ 149 - (s.natAbs : ℚ) / 2 ^ 149) := by ring
      rw [e, abs_neg]
      exact key
    · have hsq : ((s : Int) : ℚ) = ((s.natAbs : ℕ) : ℚ) := by
        rw [Nat.cast_natAbs, Int.cast_abs, abs_of_nonneg (by exact_mod_cast (not_lt.1 hs))]
      simp only [hs, decide_False, Bool.false_eq_true, if_false]
      rw [hsq, one_mul]
      exact key

/-! ## One Newton-Raphson step of the reciprocal square root, in floats -/

theorem abs_rel_bounds (R N p : ℚ) (hN : 0 ≤ N) (h : |R - N| ≤ |N| / p) :
    N - N / p ≤ R ∧ R ≤ N + N / p := by
  rw [abs_of_nonneg hN] at h
  have := abs_le.1 h
  constructor <;> linarith [this.1, this.2]

/-- The product `xhalf * (y * y)` of the Newton-Raphson step, from the two roundings. -/
theorem nr_prod (X Y Xh A : ℚ) (hX : 0 < X) (hY : 0 < Y)
    (h1 : |Xh - 1 / 2 * X| ≤ |1 / 2 * X| / 2 ^ 23)
    (h2 : |A - Y * Y| ≤ |Y * Y| / 2 ^ 24) :
    0 < Xh ∧ 0 < A ∧
    Y ^ 2 * X / 2 * ((1 - 1 / 2 ^ 23) * (1 - 1 / 2 ^ 24)) ≤ Xh * A ∧
    Xh * A ≤ Y ^ 2 * X / 2 * ((1 + 1 / 2 ^ 23) * (1 + 1 / 2 ^ 24)) := by
  obtain ⟨a1, a2⟩ := abs_rel_bounds _ _ _ (by positivity) h1
  obtain ⟨b1, b2⟩ := abs_rel_bounds _ _ _ (by positivity) h2
  have hYY : 0 < Y * Y := by positivity
  have hXl : 0 < 1 / 2 * X - 1 / 2 * X / 2 ^ 23 := by linarith
  have hAl : 0 < Y * Y - Y * Y / 2 ^ 24 := by linarith
  have hXh : 0 < Xh := by linarith
  have hA : 0 < A := by linarith
  refine ⟨hXh, hA, ?_, ?_⟩
  · calc Y ^ 2 * X / 2 * ((1 - 1 / 2 ^ 23) * (1 - 1 / 2 ^ 24))
        = (1 / 2 * X - 1 / 2 * X / 2 ^ 23) * (Y * Y - Y * Y / 2 ^ 24) := by ring
      _ ≤ Xh * A := mul_le_mul a1 b1 (le_of_lt hAl) (le_of_lt hXh)
  · calc Xh * A ≤ (1 / 2 * X + 1 / 2 * X / 2 ^ 23) * (Y * Y + Y * Y / 2 ^ 24) :=
        mul_le_mul a2 b2 (le_of_lt hA) (by linarith)
      _ = Y ^ 2 * X / 2 * ((1 + 1 / 2 ^ 23) * (1 + 1 / 2 ^ 24)) := by ring

/-- The sum `-xhalf * (y * y) + 1.5` of the Newton-Raphson step. -/
theorem nr_sum (u Xh A Bm : ℚ) (hP : 0 < Xh * A)
    (hP1 : u / 2 * ((1 - 1 / 2 ^ 23) * (1 - 1 / 2 ^ 24)) ≤ Xh * A)
    (hP2 : Xh * A ≤ u / 2 * ((1 + 1 / 2 ^ 23) * (1 + 1 / 2 ^ 24)))
    (h3 : |Bm - -Xh * A| ≤ |-Xh * A| / 2 ^ 24) :
    3 / 2 - u / 2 * (1000000239 / 1000000000) ≤ Bm + 3 / 2 ∧
    Bm + 3 / 2 ≤ 3 / 2 - u / 2 * (999999761 / 1000000000) := by
  rw [neg_mul, abs_neg, abs_of_pos hP] at h3
  have := abs_le.1 h3
  constructor
  · have : -Bm ≤ u / 2 * ((1 + 1 / 2 ^ 23) * (1 + 1 / 2 ^ 24)) * (1 + 1 / 2 ^ 24) := by
      linarith [this.1, this.2]
    linarith
  · have : u / 2 * ((1 - 1 / 2 ^ 23) * (1 - 1 / 2 ^ 24)) * (1 - 1 / 2 ^ 24) ≤ -Bm := by
      linarith [this.1, this.2]
    linarith

/-- The result `y * (...)` of the Newton-Raphson step. -/
theorem nr_out (Y S Sl Sh Cc Y1 : ℚ) (hY : 0 < Y) (hSl : 0 < Sl) (hS1 : Sl ≤ S) (hS2 : S ≤ Sh)
    (h4 : |Cc - S| ≤ |S| / 2 ^ 24) (h5 : |Y1 - Y * Cc| ≤ |Y * Cc| / 2 ^ 24) :
    Y * (Sl * (1 - 1 / 2 ^ 24) ^ 2) ≤ Y1 ∧ Y1 ≤ Y * (Sh * (1 + 1 / 2 ^ 24) ^ 2) := by
  have hS : 0 < S := lt_of_lt_of_le hSl hS1
  obtain ⟨a1, a2⟩ := abs_rel_bounds _ _ _ (le_of_lt hS) h4
  have hC : 0 < Cc := by linarith
  obtain ⟨b1, b2⟩ := abs_rel_bounds _ _ _ (le_of_lt (mul_pos hY hC)) h5
  have c1 : Sl * (1 - 1 / 2 ^ 24) ≤ Cc := by linarith
  have c2 : Cc ≤ Sh * (1 + 1 / 2 ^ 24) := by linarith
  have d1 := mul_le_mul_of_nonneg_left c1 (le_of_lt hY)
  have d2 := mul_le_mul_of_nonneg_left c2 (le_of_lt hY)
  constructor
  · calc Y * (Sl * (1 - 1 / 2 ^ 24) ^ 2) = Y * (Sl * (1 - 1 / 2 ^ 24)) * (1 - 1 / 2 ^ 24) := by ring
      _ ≤ Y * Cc * (1 - 1 / 2 ^ 24) := mul_le_mul_of_nonneg_right d1 (by norm_num)
      _ ≤ Y1 := by linarith
  · calc Y1 ≤ Y * Cc * (1 + 1 / 2 ^ 24) := by linarith
      _ ≤ Y * (Sh * (1 + 1 / 2 ^ 24)) * (1 + 1 / 2 ^ 24) :=
        mul_le_mul_of_nonneg_right d2 (by norm_num)
      _ = Y * (Sh * (1 + 1 / 2 ^ 24) ^ 2) := by ring

/-- From the bounds on the new iterate to bounds on `y1 ^ 2 * x`. -/
theorem nr_sq (X Y Y1 Sl Sh : ℚ) (hX : 0 < X) (hY : 0 < Y) (hSl : 0 < Sl)
    (h1 : Y * (Sl * (1 - 1 / 2 ^ 24) ^ 2) ≤ Y1) (h2 : Y1 ≤ Y * (Sh * (1 + 1 / 2 ^ 24) ^ 2)) :
    0 < Y1 ∧ Y ^ 2 * X * Sl ^ 2 * (999999761 / 1000000000) ≤ Y1 ^ 2 * X ∧
      Y1 ^ 2 * X ≤ Y ^ 2 * X * Sh ^ 2 * (1000000239 / 1000000000) := by
  have hl : 0 < Y * (Sl * (1 - 1 / 2 ^ 24) ^ 2) := by positivity
  have hY1 : 0 < Y1 := lt_of_lt_of_le hl h1
  have hu : 0 < Y ^ 2 * X := by positivity
  refine ⟨hY1, ?_, ?_⟩
  · have := pow_le_pow_left₀ (le_of_lt hl) h1 2
    have e : (Y * (Sl * (1 - 1 / 2 ^ 24) ^ 2)) ^ 2 * X
        = Y ^ 2 * X * Sl ^ 2 * ((1 - 1 / 2 ^ 24) ^ 4) := by ring
    have k : (999999761 / 1000000000 : ℚ) ≤ (1 - 1 / 2 ^ 24) ^ 4 := by norm_num
    calc Y ^ 2 * X * Sl ^ 2 * (999999761 / 1000000000)
        ≤ Y ^ 2 * X * Sl ^ 2 * ((1 - 1 / 2 ^ 24) ^ 4) :=
          mul_le_mul_of_nonneg_left k (by positivity)
      _ = (Y * (Sl * (1 - 1 / 2 ^ 24) ^ 2)) ^ 2 * X := e.symm
      _ ≤ Y1 ^ 2 * X := mul_le_mul_of_nonneg_right this (le_of_lt hX)
  · have := pow_le_pow_left₀ (le_of_lt hY1) h2 2
    have e : (Y * (Sh * (1 + 1 / 2 ^ 24) ^ 2)) ^ 2 * X
        = Y ^ 2 * X * Sh ^ 2 * ((1 + 1 / 2 ^ 24) ^ 4) := by ring
    have k : ((1 + 1 / 2 ^ 24) ^ 4 : ℚ) ≤ 1000000239 / 1000000000 := by norm_num
    calc Y1 ^ 2 * X ≤ (Y * (Sh * (1 + 1 / 2 ^ 24) ^ 2)) ^ 2 * X :=
          mul_le_mul_of_nonneg_right this (le_of_lt hX)
      _ = Y ^ 2 * X * Sh ^ 2 * ((1 + 1 / 2 ^ 24) ^ 4) := e
      _ ≤ Y ^ 2 * X * Sh ^ 2 * (1000000239 / 1000000000) :=
          mul_le_mul_of_nonneg_left k (by positivity)

/-- Upper bound of the Newton-Raphson map `u * (3/2 - K * u / 2) ^ 2 <= 1 / K`. -/
theorem nr_poly_upper (u K : ℚ) (h : K * u ≤ 4) :
    K * (u * (3 / 2 - u / 2 * K) ^ 2) ≤ 1 := by
  have : 4 - 4 * (K * (u * (3 / 2 - u / 2 * K) ^ 2)) = (1 - K * u) ^ 2 * (4 - K * u) := by ring
  have h2 : 0 ≤ (1 - K * u) ^ 2 * (4 - K * u) := mul_nonneg (sq_nonneg _) (by linarith)
  linarith

/-- Lower bound of the Newton-Raphson map on an interval, from its two end points. -/
theorem nr_poly_lower (u L H K m : ℚ) (hL : L ≤ u) (hH : u ≤ H) (hLH : L < H) (hK : 0 < K)
    (h3 : K * (L + 2 * H) ≤ 6)
    (m1 : m ≤ L * (3 / 2 - L / 2 * K) ^ 2) (m2 : m ≤ H * (3 / 2 - H / 2 * K) ^ 2) :
    m ≤ u * (3 / 2 - u / 2 * K) ^ 2 := by
  have id : (H - L) * (u * (3 / 2 - u / 2 * K) ^ 2)
      = (H - L) * (K / 4 * ((u - L) * (H - u) * (6 - K * (u + L + H))))
        + L * (3 / 2 - L / 2 * K) ^ 2 * (H - u) + H * (3 / 2 - H / 2 * K) ^ 2 * (u - L) := by
    ring
  have p1 : 0 ≤ (u - L) * (H - u) := mul_nonneg (by linarith) (by linarith)
  have p2 : 0 ≤ 6 - K * (u + L + H) := by nlinarith
  have p3 : 0 ≤ (H - L) * (K / 4 * ((u - L) * (H - u) * (6 - K * (u + L + H)))) :=
    mul_nonneg (by linarith) (mul_nonneg (by positivity) (mul_nonneg p1 p2))
  have q1 : m * (H - u) ≤ L * (3 / 2 - L / 2 * K) ^ 2 * (H - u) :=
    mul_le_mul_of_nonneg_right m1 (by linarith)
  have q2 : m * (u - L) ≤ H * (3 / 2 - H / 2 * K) ^ 2 * (u - L) :=
    mul_le_mul_of_nonneg_right m2 (by linarith)
  have : (H - L) * m ≤ (H - L) * (u * (3 / 2 - u / 2 * K) ^ 2) := by
    rw [id]
    nlinarith
  exact le_of_mul_le_mul_left this (by linarith)

theorem toRat_lit_half : toRat (lit 5 1) = 1 / 2 := by
  rw [toRat_of_toInt _ (2 ^ 148) (by decide!)]
  norm_num

theorem toRat_lit_three_halves : toRat (lit 15 1) = 3 / 2 := by
  rw [toRat_of_toInt _ (3 * 2 ^ 148) (by decide!)]
  norm_num

theorem posNormal_range (x : Nat) (hx : isPosNormal x = true) :
    isFinite x = true ∧ (1 : ℚ) / 2 ^ 126 ≤ toRat x := by
  simp only [isPosNormal, decide_eq_true_eq] at hx
  obtain ⟨h1, h2⟩ := hx
  obtain ⟨e, _⟩ := toRat_posNormal x h1 h2
  constructor
  · unfold isFinite expField
    simp only [decide_eq_true_eq]
    norm_num at h1 h2 ⊢
    omega
  · have hm : 2 ^ 23 ≤ mag x := by
      rw [mag_posNormal x h1 h2]
      calc 2 ^ 23 ≤ (2 ^ 23 + x % 2 ^ 23) * 1 := by omega
        _ ≤ (2 ^ 23 + x % 2 ^ 23) * 2 ^ (x / 2 ^ 23 - 1) :=
          Nat.mul_le_mul_left _ Nat.one_le_two_pow
    have hq : (2 ^ 23 : ℚ) ≤ (mag x : ℚ) := by exact_mod_cast hm
    rw [e, div_le_div_iff₀ (by positivity) (by positivity)]
    have : (2 : ℚ) ^ 149 = 2 ^ 126 * 2 ^ 23 := by rw [← pow_add]
    rw [this]
    nlinarith [show (0 : ℚ) < 2 ^ 126 by positivity]

set_option maxRecDepth 10000 in
/-- One step `y * (-xhalf * (y * y) + 1.5f)` in floats, with `xhalf = 0.5f * x`: when
`u = y ^ 2 * x` lies in `[0.9, 1.1]`, the new iterate is finite and positive and
`y1 ^ 2 * x` is within a factor `1 +- 2.39e-7` of the range of the exact map
`u * (3/2 - u/2) ^ 2` perturbed by a factor `1 +- 2.39e-7` in `u`. -/
theorem rcpSqrtNewtonRaphson_step (x y : Nat) (hx : isPosNormal x = true)
    (hx6 : toRat x ≤ 1000000) (hy : isFinite y = true) (hY : 0 < toRat y)
    (hu1 : 9 / 10 ≤ toRat y ^ 2 * toRat x) (hu2 : toRat y ^ 2 * toRat x ≤ 11 / 10) :
    isFinite (rcpSqrtNewtonRaphson (fmul (lit 5 1) x) y) = true ∧
    0 < toRat (rcpSqrtNewtonRaphson (fmul (lit 5 1) x) y) ∧
    toRat y ^ 2 * toRat x
        * (3 / 2 - toRat y ^ 2 * toRat x / 2 * (1000000239 / 1000000000)) ^ 2
        * (999999761 / 1000000000)
      ≤ toRat (rcpSqrtNewtonRaphson (fmul (lit 5 1) x) y) ^ 2 * toRat x ∧
    toRat (rcpSqrtNewtonRaphson (fmul (lit 5 1) x) y) ^ 2 * toRat x
      ≤ toRat y ^ 2 * toRat x
        * (3 / 2 - toRat y ^ 2 * toRat x / 2 * (999999761 / 1000000000)) ^ 2
        * (1000000239 / 1000000000) := by
  obtain ⟨hfx, hxlo⟩ := posNormal_range x hx
  have hX : 0 < toRat x := lt_of_lt_of_le (by positivity) hxlo
  have hl5 : isFinite (lit 5 1) = true := by decide!
  have hl15 : isFinite (lit 15 1) = true := by decide!
  unfold rcpSqrtNewtonRaphson
  generalize hXd : toRat x = X at *
  generalize hYd : toRat y = Y at *
  -- xhalf
  obtain ⟨fxh, exh⟩ := fmul_rel (lit 5 1) x 22 hl5 hfx (by norm_num)
    (by rw [toRat_lit_half, hXd, abs_of_pos (by positivity)]
        norm_num at hxlo ⊢
        linarith)
    (by rw [toRat_lit_half, hXd, abs_of_pos (by positivity)]
        norm_num
        linarith)
  rw [toRat_lit_half, hXd] at exh
  generalize hXhd : toRat (fmul (lit 5 1) x) = Xh at *
  -- y * y
  have hYY1 : 9 / 10000000 ≤ Y * Y := by
    have : Y ^ 2 * X ≤ Y ^ 2 * 1000000 := mul_le_mul_of_nonneg_left hx6 (sq_nonneg _)
    nlinarith
  have hYY2 : Y * Y < 2 ^ 127 := by
    have : Y ^ 2 * (1 / 2 ^ 126) ≤ Y ^ 2 * X := mul_le_mul_of_nonneg_left hxlo (sq_nonneg _)
    norm_num at this ⊢
    nlinarith
  obtain ⟨fA, eA⟩ := fmul_rel y y 23 hy hy le_rfl
    (by rw [hYd, abs_of_pos (by positivity)]
        norm_num
        linarith)
    (by rw [hYd, abs_of_pos (by positivity)]
        exact hYY2)
  rw [hYd] at eA
  generalize hAd : toRat (fmul y y) = A at *
  obtain ⟨pXh, pA, P1, P2⟩ := nr_prod X Y Xh A hX hY exh eA
  have hP : 0 < Xh * A := mul_pos pXh pA
  have hP1 : 44 / 100 ≤ Xh * A := by
    norm_num at P1 ⊢
    linarith
  have hP2 : Xh * A ≤ 56 / 100 := by
    norm_num at P2 ⊢
    linarith
  -- -xhalf * (y * y)
  obtain ⟨fB, eB⟩ := fmul_rel (fneg (fmul (lit 5 1) x)) (fmul y y) 23
    (by rw [isFinite_fneg]; exact fxh) fA le_rfl
    (by rw [toRat_fneg, hXhd, hAd, neg_mul, abs_neg, abs_of_pos hP]
        norm_num
        linarith)
    (by rw [toRat_fneg, hXhd, hAd, neg_mul, abs_neg, abs_of_pos hP]
        norm_num
        linarith)
  rw [toRat_fneg, hXhd, hAd] at eB
  generalize hBd : toRat (fmul (fneg (fmul (lit 5 1) x)) (fmul y y)) = Bm at *
  obtain ⟨S1, S2⟩ := nr_sum (Y ^ 2 * X) Xh A Bm hP P1 P2 eB
  have hSl : 0 < 3 / 2 - Y ^ 2 * X / 2 * (1000000239 / 1000000000) := by linarith
  have hS : 0 < Bm + 3 / 2 := lt_of_lt_of_le hSl S1
  -- ... + 1.5f
  obtain ⟨fC, eC⟩ := fadd_rel (fmul (fneg (fmul (lit 5 1) x)) (fmul y y)) (lit 15 1) fB hl15
    (by rw [hBd, toRat_lit_three_halves, abs_of_pos hS]
        norm_num
        linarith)
  rw [hBd, toRat_lit_three_halves] at eC
  generalize hCd :
    toRat (fadd (fmul (fneg (fmul (lit 5 1) x)) (fmul y y)) (lit 15 1)) = Cc at *
  obtain ⟨c1, c2⟩ := abs_rel_bounds _ _ _ (le_of_lt hS) eC
  have hC1 : 8 / 10 ≤ Cc := by
    norm_num at c1 ⊢
    linarith
  have hC2 : Cc ≤ 12 / 10 := by
    norm_num at c2 ⊢
    linarith
  have hY1 : 1 / 2 ^ 20 ≤ Y := by
    by_contra hcon
    push_neg at hcon
    have : Y * Y < 1 / 2 ^ 20 * (1 / 2 ^ 20) := mul_lt_mul'' hcon hcon (le_of_lt hY) (le_of_lt hY)
    norm_num at this
    linarith
  have hY2 : Y < 2 ^ 64 := by
    by_contra hcon
    push_neg at hcon
    have : (2 : ℚ) ^ 64 * 2 ^ 64 ≤ Y * Y := mul_le_mul hcon hcon (by positivity) (le_of_lt hY)
    norm_num at this hYY2
    linarith
  have hYC : 0 < Y * Cc := mul_pos hY (by linarith)
  -- y * (...)
  obtain ⟨fY, eY⟩ := fmul_rel y (fadd (fmul (fneg (fmul (lit 5 1) x)) (fmul y y)) (lit 15 1)) 23
    hy fC le_rfl
    (by rw [hYd, hCd, abs_of_pos hYC]
        have : 1 / 2 ^ 20 * (8 / 10) ≤ Y * Cc := mul_le_mul hY1 hC1 (by norm_num) (le_of_lt hY)
        norm_num at this ⊢
        linarith)
    (by rw [hYd, hCd, abs_of_pos hYC]
        have : Y * Cc ≤ 2 ^ 64 * (12 / 10) :=
          mul_le_mul (le_of_lt hY2) hC2 (by linarith) (by positivity)
        norm_num at this ⊢
        linarith)
  rw [hYd, hCd] at eY
  generalize hYnd :
    toRat (fmul y (fadd (fmul (fneg (fmul (lit 5 1) x)) (fmul y y)) (lit 15 1))) = Y1 at *
  obtain ⟨o1, o2⟩ := nr_out Y (Bm + 3 / 2) _ _ Cc Y1 hY hSl S1 S2 eC eY
  obtain ⟨q0, q1, q2⟩ := nr_sq X Y Y1 _ _ hX hY hSl o1 o2
  exact ⟨fY, q0, q1, q2⟩
/-- One float step maps an interval `[L, H]` of `y ^ 2 * x` inside `[0.9, 1.1]` into
`[L1, H1]`, given the values of the perturbed exact map at the two end points. -/
theorem rcpSqrtNewtonRaphson_interval (x y : Nat) (L H L1 H1 : ℚ)
    (hx : isPosNormal x = true) (hx6 : toRat x ≤ 1000000) (hy : isFinite y = true)
    (hY : 0 < toRat y) (hL : L ≤ toRat y ^ 2 * toRat x) (hH : toRat y ^ 2 * toRat x ≤ H)
    (hLH : L < H) (h9 : 9 / 10 ≤ L) (h11 : H ≤ 11 / 10)
    (n1 : L1 ≤ L * (3 / 2 - L / 2 * (1000000239 / 1000000000)) ^ 2 * (999999761 / 1000000000))
    (n2 : L1 ≤ H * (3 / 2 - H / 2 * (1000000239 / 1000000000)) ^ 2 * (999999761 / 1000000000))
    (n3 : 1000000239 / 1000000000 ≤ H1 * (999999761 / 1000000000)) :
    isFinite (rcpSqrtNewtonRaphson (fmul (lit 5 1) x) y) = true ∧
    0 < toRat (rcpSqrtNewtonRaphson (fmul (lit 5 1) x) y) ∧
    L1 ≤ toRat (rcpSqrtNewtonRaphson (fmul (lit 5 1) x) y) ^ 2 * toRat x ∧
    toRat (rcpSqrtNewtonRaphson (fmul (lit 5 1) x) y) ^ 2 * toRat x ≤ H1 := by
  obtain ⟨f, p, q1, q2⟩ := rcpSqrtNewtonRaphson_step x y hx hx6 hy hY (by linarith) (by linarith)
  generalize toRat (rcpSqrtNewtonRaphson (fmul (lit 5 1) x) y) ^ 2 * toRat x = u1 at *
  generalize toRat y ^ 2 * toRat x = u at *
  refine ⟨f, p, ?_, ?_⟩
  · have := nr_poly_lower u L H (1000000239 / 1000000000) (L1 / (999999761 / 1000000000))
      hL hH hLH (by norm_num) (by linarith)
      (by rw [div_le_iff₀ (by norm_num)]; exact n1)
      (by rw [div_le_iff₀ (by norm_num)]; exact n2)
    rw [div_le_iff₀ (by norm_num)] at this
    linarith
  · have := nr_poly_upper u (999999761 / 1000000000) (by linarith)
    have h2 : 0 ≤ u * (3 / 2 - u / 2 * (999999761 / 1000000000)) ^ 2 :=
      mul_nonneg (by linarith) (sq_nonneg _)
    nlinarith

theorem rcpSqrt_seed1_eq (x : Nat) (h1 : 0x00800000 ≤ x) (h2 : x ≤ 0x7F7FFFFF) :
    rcpSqrtIEEEIntApproximation x 0x5F375A86 = 190 * 2 ^ 23 + 3627654 - x / 2 := by
  rw [rcpSqrtIEEEIntApproximation_eq]
  unfold asfloat asint wrap32
  norm_num at h1 h2 ⊢
  omega

set_option maxRecDepth 10000 in
/-- The seed `0x5F375A86 - (bits x >> 1)` of tiers 1 and 2 on positive normal floats:
`y ^ 2 * x` lies within `[(1 - 0.03437) ^ 2, (1 + 0.03398) ^ 2]`. -/
theorem rcpSqrt_seed1_bounds (x : Nat) (hx : isPosNormal x = true) :
    isFinite (rcpSqrtIEEEIntApproximation x 0x5F375A86) = true ∧
    0 < toRat (rcpSqrtIEEEIntApproximation x 0x5F375A86) ∧
    (1 - 3437 / 100000) ^ 2 ≤ toRat (rcpSqrtIEEEIntApproximation x 0x5F375A86) ^ 2 * toRat x ∧
    toRat (rcpSqrtIEEEIntApproximation x 0x5F375A86) ^ 2 * toRat x ≤ (1 + 3398 / 100000) ^ 2 := by
  have hx0 := hx
  simp only [isPosNormal, decide_eq_true_eq] at hx
  obtain ⟨h1, h2⟩ := hx
  obtain ⟨hlo, hhi, hY, _⟩ := rcpSqrt_seed_bounds 3627654 x ((1 - 3437 / 100000) ^ 2)
    ((1 + 3398 / 100000) ^ 2) (by norm_num) (by norm_num) h1 h2
    (by norm_num) (by norm_num) (by norm_num) (by norm_num) (by norm_num) (by norm_num)
    (by norm_num) (by norm_num) (by norm_num)
  obtain ⟨s1, s2, _⟩ := rcpSqrt_seed_shape 3627654 x (by norm_num) h1 h2
  rw [rcpSqrt_seed1_eq x h1 h2]
  refine ⟨(posNormal_range _ ?_).1, hY, hlo, hhi⟩
  simp only [isPosNormal, decide_eq_true_eq]
  exact ⟨s1, s2⟩

/-- After one step from the seed of tiers 1 and 2, `y ^ 2 * x` lies within
`[(1 - 0.001752) ^ 2, (1 + 0.0000003) ^ 2]`. -/
theorem fastRcpSqrtNR1_sq_bounds (x : Nat) (hx : isPosNormal x = true)
    (hx6 : toRat x ≤ 1000000) :
    isFinite (fastRcpSqrtNR1 x) = true ∧ 0 < toRat (fastRcpSqrtNR1 x) ∧
    (1 - 1752 / 1000000) ^ 2 ≤ toRat (fastRcpSqrtNR1 x) ^ 2 * toRat x ∧
    toRat (fastRcpSqrtNR1 x) ^ 2 * toRat x ≤ (1 + 3 / 10000000) ^ 2 := by
  obtain ⟨f, p, l, h⟩ := rcpSqrt_seed1_bounds x hx
  exact rcpSqrtNewtonRaphson_interval x _ _ _ _ _ hx hx6 f p l h
    (by norm_num) (by norm_num) (by norm_num) (by norm_num) (by norm_num) (by norm_num)

/-- After two steps, `y ^ 2 * x` lies within `[(1 - 0.000005) ^ 2, (1 + 0.0000003) ^ 2]`. -/
theorem fastRcpSqrtNR2_sq_bounds (x : Nat) (hx : isPosNormal x = true)
    (hx6 : toRat x ≤ 1000000) :
    isFinite (fastRcpSqrtNR2 x) = true ∧ 0 < toRat (fastRcpSqrtNR2 x) ∧
    (1 - 5 / 1000000) ^ 2 ≤ toRat (fastRcpSqrtNR2 x) ^ 2 * toRat x ∧
    toRat (fastRcpSqrtNR2 x) ^ 2 * toRat x ≤ (1 + 3 / 10000000) ^ 2 := by
  obtain ⟨f, p, l, h⟩ := fastRcpSqrtNR1_sq_bounds x hx hx6
  exact rcpSqrtNewtonRaphson_interval x _ _ _ _ _ hx hx6 f p l h
    (by norm_num) (by norm_num) (by norm_num) (by norm_num) (by norm_num) (by norm_num)

/-! ## Relative error of the refined reciprocal square roots -/

/-- From rational two-sided bounds on `y ^ 2 * x` to the relative error of `y` against
`1 / sqrt x` over the reals. -/
theorem relErr_of_rat_sq_bounds (X Y δ : ℚ) (hX : 0 < X) (hY : 0 < Y) (hδ0 : 0 ≤ δ)
    (hδ1 : δ ≤ 1) (hlo : (1 - δ) ^ 2 ≤ Y ^ 2 * X) (hhi : Y ^ 2 * X ≤ (1 + δ) ^ 2) :
    |(Y : ℝ) - 1 / Real.sqrt (X : ℝ)| / (1 / Real.sqrt (X : ℝ)) ≤ (δ : ℝ) := by
  apply relErr_of_sq_bounds _ _ _ (by exact_mod_cast hX) (by exact_mod_cast hY)
    (by exact_mod_cast hδ0) (by exact_mod_cast hδ1)
  · exact_mod_cast hlo
  · exact_mod_cast hhi

/-- C13: for every positive normal float `x <= 1e6`, `fastRcpSqrtNR1 x` is one float step
`y * (-(0.5f * x) * (y * y) + 1.5f)` from the seed with bits `0x5F375A86 - (bits x >> 1)`,
and its relative error against `1 / sqrt x` is at most `0.2` percent. -/
theorem fastRcpSqrtNR1_error (x : Nat) (hx : isPosNormal x = true) (hx6 : toRat x ≤ 1000000) :
    fastRcpSqrtNR1 x = rcpSqrtNewtonRaphson (fmul (lit 5 1) x) (0x5F375A86 - x / 2) ∧
    |((toRat (fastRcpSqrtNR1 x) : ℚ) : ℝ) - 1 / Real.sqrt ((toRat x : ℚ) : ℝ)|
      / (1 / Real.sqrt ((toRat x : ℚ) : ℝ)) ≤ 2 / 1000 := by
  constructor
  · simp only [isPosNormal, decide_eq_true_eq] at hx
    show rcpSqrtNewtonRaphson (fmul (lit 5 1) x) (rcpSqrtIEEEIntApproximation x 0x5F375A86) = _
    rw [rcpSqrt_seed1_eq x hx.1 hx.2]
    norm_num
  · obtain ⟨_, p, l, h⟩ := fastRcpSqrtNR1_sq_bounds x hx hx6
    have hX : 0 < toRat x := lt_of_lt_of_le (by positivity) (posNormal_range x hx).2
    have := relErr_of_rat_sq_bounds (toRat x) (toRat (fastRcpSqrtNR1 x)) (2 / 1000) hX p
      (by norm_num) (by norm_num) (le_trans (by norm_num) l) (le_trans h (by norm_num))
    push_cast at this
    exact this

theorem fastRcpSqrtNR1_error_witness :
    isPosNormal 0x3F800000 = true ∧ toRat 0x3F800000 ≤ 1000000 ∧
    fastRcpSqrtNR1 0x3F800000
      = rcpSqrtNewtonRaphson (fmul (lit 5 1) 0x3F800000) (0x5F375A86 - 0x3F800000 / 2) ∧
    |((toRat (fastRcpSqrtNR1 0x3F800000) : ℚ) : ℝ) - 1 / Real.sqrt ((toRat 0x3F800000 : ℚ) : ℝ)|
      / (1 / Real.sqrt ((toRat 0x3F800000 : ℚ) : ℝ)) ≤ 2 / 1000 :=
  have h : toRat 0x3F800000 ≤ 1000000 := by
    rw [toRat_of_toInt _ (2 ^ 149) (by decide!)]
    norm_num
  ⟨by decide, h, fastRcpSqrtNR1_error 0x3F800000 (by decide) h⟩

/-- C14, as stated, fails: the subnormal float `x = 0x00400000 = 2 ^ (-127)` lies in
`(0, 1e6]`; the seed is `0x5F175A86`, the two steps give `0x5F34A167`
(about `1.30158e19`), and against `1 / sqrt x` (about `1.30438e19`) the relative error
is about `2.1e-3`, above `5e-6`. -/
theorem fastRcpSqrtNR2_subnormal_off :
    isPosNormal 0x00400000 = false ∧ 0 < toRat 0x00400000 ∧ toRat 0x00400000 ≤ 1000000 ∧
    fastRcpSqrtNR2 0x00400000 = 0x5F34A167 ∧
    (5 : ℝ) / 1000000 <
      |((toRat (fastRcpSqrtNR2 0x00400000) : ℚ) : ℝ) - 1 / Real.sqrt ((toRat 0x00400000 : ℚ) : ℝ)|
        / (1 / Real.sqrt ((toRat 0x00400000 : ℚ) : ℝ)) := by
  have e : fastRcpSqrtNR2 0x00400000 = 0x5F34A167 := by decide!
  have hx : toRat 0x00400000 = 1 / 2 ^ 127 := by
    rw [toRat_of_toInt _ (2 ^ 22) (by decide!)]
    norm_num
  have hy : toRat 0x5F34A167 = 11837799 * 2 ^ 40 := by
    rw [toRat_of_toInt _ (11837799 * 2 ^ 189) (by decide!)]
    norm_num
  refine ⟨by decide, by rw [hx]; positivity, by rw [hx]; norm_num, e, ?_⟩
  rw [e, hx, hy]
  push_cast
  have hs0 : (0 : ℝ) < Real.sqrt (1 / 2 ^ 127) := Real.sqrt_pos.2 (by positivity)
  have hs1 : Real.sqrt (1 / 2 ^ 127) < 14143 / (10000 * 2 ^ 64) := by
    rw [Real.sqrt_lt' (by positivity)]
    norm_num
  rw [relErr_eq _ _ hs0, lt_abs]
  right
  have : (11837799 * 2 ^ 40 : ℝ) * Real.sqrt (1 / 2 ^ 127)
      < 11837799 * 2 ^ 40 * (14143 / (10000 * 2 ^ 64)) :=
    mul_lt_mul_of_pos_left hs1 (by positivity)
  norm_num at this ⊢
  linarith

/-- C14, amended: for every positive normal float `x <= 1e6`, `fastRcpSqrtNR2 x` is two
float steps `y * (-(0.5f * x) * (y * y) + 1.5f)` from the seed with bits
`0x5F375A86 - (bits x >> 1)`, and its relative error against `1 / sqrt x` is at most
`5e-6`. -/
theorem fastRcpSqrtNR2_error (x : Nat) (hx : isPosNormal x = true) (hx6 : toRat x ≤ 1000000) :
    fastRcpSqrtNR2 x = rcpSqrtNewtonRaphson (fmul (lit 5 1) x)
      (rcpSqrtNewtonRaphson (fmul (lit 5 1) x) (0x5F375A86 - x / 2)) ∧
    |((toRat (fastRcpSqrtNR2 x) : ℚ) : ℝ) - 1 / Real.sqrt ((toRat x : ℚ) : ℝ)|
      / (1 / Real.sqrt ((toRat x : ℚ) : ℝ)) ≤ 5 / 1000000 := by
  constructor
  · simp only [isPosNormal, decide_eq_true_eq] at hx
    show rcpSqrtNewtonRaphson (fmul (lit 5 1) x) (rcpSqrtNewtonRaphson (fmul (lit 5 1) x)
      (rcpSqrtIEEEIntApproximation x 0x5F375A86)) = _
    rw [rcpSqrt_seed1_eq x hx.1 hx.2]
    norm_num
  · obtain ⟨_, p, l, h⟩ := fastRcpSqrtNR2_sq_bounds x hx hx6
    have hX : 0 < toRat x := lt_of_lt_of_le (by positivity) (posNormal_range x hx).2
    have := relErr_of_rat_sq_bounds (toRat x) (toRat (fastRcpSqrtNR2 x)) (5 / 1000000) hX p
      (by norm_num) (by norm_num) l (le_trans h (by norm_num))
    push_cast at this
    exact this

theorem fastRcpSqrtNR2_error_witness :
    isPosNormal 0x40800000 = true ∧ toRat 0x40800000 ≤ 1000000 ∧
    fastRcpSqrtNR2 0x40800000 = rcpSqrtNewtonRaphson (fmul (lit 5 1) 0x40800000)
      (rcpSqrtNewtonRaphson (fmul (lit 5 1) 0x40800000) (0x5F375A86 - 0x40800000 / 2)) ∧
    |((toRat (fastRcpSqrtNR2 0x40800000) : ℚ) : ℝ) - 1 / Real.sqrt ((toRat 0x40800000 : ℚ) : ℝ)|
      / (1 / Real.sqrt ((toRat 0x40800000 : ℚ) : ℝ)) ≤ 5 / 1000000 :=
  have h : toRat 0x40800000 ≤ 1000000 := by
    rw [toRat_of_toInt _ (2 ^ 151) (by decide!)]
    norm_num
  ⟨by decide, h, fastRcpSqrtNR2_error 0x40800000 (by decide) h⟩
